import Mathlib

/-!
Verification of the `uri` Go package (RFC 3986 URI parser, validator and
builder) against its natural-language specification.

The Go code is shallowly embedded: Go strings become lists of bytes
(`GoStr`), pure Go functions become Lean functions, the few pointer
mutations (`u.Validate()` writing the host kind, the builder setters)
become explicit state passing.  Machine integers are `Nat`/`Int` (Go's
`strings.IndexByte` convention of returning `-1` is kept with `Int`).

Functions of the Go standard library used by the package
(`utf8.DecodeRuneInString`, `unicode.IsLetter`, `unicode.IsDigit`,
`netip.ParseAddr`) are modelled; each model carries a doc comment saying
so and stating the domain on which it is faithful.
-/

/-- A Go string: a list of bytes (each `< 256`). -/
abbrev GoStr := List Nat

/-- Byte-wise well-formedness of a Go string: every element is a byte. -/
def wfStr (s : GoStr) : Prop := ∀ b ∈ s, b < 256

instance : DecidablePred wfStr := fun s => List.decidableBAll _ s

-- char and string literals of the source (uri.go).
def colonMark : Nat := 0x3A
def questionMark : Nat := 0x3F
def fragmentMark : Nat := 0x23
def percentMark : Nat := 0x25
def atHost : Nat := 0x40
def slashMark : Nat := 0x2F
def openingBracketMark : Nat := 0x5B
def closingBracketMark : Nat := 0x5D
def dotSeparator : Nat := 0x2E

-- DNS name constants (uri.go).
def maxSegmentLength : Nat := 63
def maxDomainLength : Nat := 255

/-- The `"//"` authority marker (`authorityPrefix` in the source). -/
def authorityPre : GoStr := [0x2F, 0x2F]

/-- UTF-8 encoding of one character, used to write concrete Go strings. -/
def encodeChar (c : Char) : GoStr :=
  let v := c.toNat
  if v < 0x80 then [v]
  else if v < 0x800 then [0xC0 + v / 0x40, 0x80 + v % 0x40]
  else if v < 0x10000 then
    [0xE0 + v / 0x1000, 0x80 + (v / 0x40) % 0x40, 0x80 + v % 0x40]
  else
    [0xF0 + v / 0x40000, 0x80 + (v / 0x1000) % 0x40,
     0x80 + (v / 0x40) % 0x40, 0x80 + v % 0x40]

/-- Build a `GoStr` from characters (UTF-8 bytes, as Go source literals). -/
def cs (l : List Char) : GoStr := l.foldr (fun c acc => encodeChar c ++ acc) []

/-- `utf8.RuneError` (U+FFFD). -/
def runeError : Nat := 0xFFFD

/-- A UTF-8 continuation byte. -/
def isCont (b : Nat) : Bool := 0x80 ≤ b && b ≤ 0xBF

/-- Model of Go `utf8.DecodeRuneInString`: decode the first rune of `s`,
returning the code point and the number of bytes consumed.  Invalid or
truncated encodings give `(runeError, 1)`; the empty string gives
`(runeError, 0)`, exactly as in the standard library. -/
def decodeRune (s : GoStr) : Nat × Nat :=
  match s with
  | [] => (runeError, 0)
  | b0 :: rest =>
    if b0 < 0x80 then (b0, 1)
    else if 0xC2 ≤ b0 && b0 ≤ 0xDF then
      match rest with
      | b1 :: _ =>
        if isCont b1 then ((b0 % 0x20) * 0x40 + (b1 % 0x40), 2) else (runeError, 1)
      | [] => (runeError, 1)
    else if 0xE0 ≤ b0 && b0 ≤ 0xEF then
      match rest with
      | b1 :: b2 :: _ =>
        if (if b0 == 0xE0 then 0xA0 ≤ b1 && b1 ≤ 0xBF
            else if b0 == 0xED then 0x80 ≤ b1 && b1 ≤ 0x9F
            else isCont b1) && isCont b2
        then ((b0 % 0x10) * 0x1000 + (b1 % 0x40) * 0x40 + (b2 % 0x40), 3)
        else (runeError, 1)
      | _ => (runeError, 1)
    else if 0xF0 ≤ b0 && b0 ≤ 0xF4 then
      match rest with
      | b1 :: b2 :: b3 :: _ =>
        if (if b0 == 0xF0 then 0x90 ≤ b1 && b1 ≤ 0xBF
            else if b0 == 0xF4 then 0x80 ≤ b1 && b1 ≤ 0x8F
            else isCont b1) && isCont b2 && isCont b3
        then ((b0 % 8) * 0x40000 + (b1 % 0x40) * 0x1000 +
              (b2 % 0x40) * 0x40 + (b3 % 0x40), 4)
        else (runeError, 1)
      | _ => (runeError, 1)
    else (runeError, 1)

theorem decodeRune_size_pos (b : Nat) (rest : GoStr) :
    1 ≤ (decodeRune (b :: rest)).2 := by
  unfold decodeRune
  dsimp only
  repeat' split
  all_goals simp

theorem decodeRune_size_le (s : GoStr) : (decodeRune s).2 ≤ s.length := by
  unfold decodeRune
  match s with
  | [] => simp
  | b0 :: rest =>
    dsimp only
    repeat' split
    all_goals simp_all

/-- Model of Go `unicode.IsLetter`, faithful on the Latin-1 range
(`properties` table of the `unicode` package).  Code points at or above
`0x100` are not classified by this model; every concrete string this
development evaluates stays within Latin-1. -/
def unicodeIsLetter (r : Nat) : Bool :=
  (0x41 ≤ r && r ≤ 0x5A) || (0x61 ≤ r && r ≤ 0x7A) ||
  r == 0xAA || r == 0xB5 || r == 0xBA ||
  (0xC0 ≤ r && r ≤ 0xD6) || (0xD8 ≤ r && r ≤ 0xF6) || (0xF8 ≤ r && r ≤ 0xFF)

/-- Model of Go `unicode.IsDigit`, faithful on the Latin-1 range (the only
Latin-1 decimal digits are ASCII `0`-`9`).  Code points at or above `0x100`
are not classified by this model. -/
def unicodeIsDigit (r : Nat) : Bool := 0x30 ≤ r && r ≤ 0x39

/-- The sentinel error kinds of the package (errors.go).  A Go error value
is modelled as the list of sentinels it wraps (`errorsJoin` appends;
detail-only `fmt.Errorf` errors contribute nothing). -/
inductive ErrKind where
  | noSchemeFound
  | invalidURI
  | invalidCharacter
  | invalidScheme
  | invalidQuery
  | invalidFragment
  | invalidPath
  | invalidHost
  | invalidPort
  | invalidUserInfo
  | missingHost
  | invalidHostAddress
  | invalidRegisteredName
  | invalidDNSName
  | invalidEscaping
  deriving DecidableEq, Repr

/-- A non-nil Go error: the sentinel kinds it wraps (possibly none). -/
abbrev Err := List ErrKind

/-- Model of Go `strings.IndexByte`: first index of byte `b` or `-1`. -/
def indexByte (s : GoStr) (b : Nat) : Int :=
  match s with
  | [] => -1
  | x :: rest =>
    if x == b then 0
    else
      let i := indexByte rest b
      if i < 0 then -1 else i + 1

/-- Model of Go `strings.HasPrefix`. -/
def goStartsWith (s p : GoStr) : Bool := s.take p.length == p

/-- Go slicing `s[a:b]` (byte indices). -/
def goSlice (s : GoStr) (a b : Int) : GoStr := (s.take b.toNat).drop a.toNat

/-- `isDigit` of the package (ASCII decimal digit). -/
def isDigit (c : Nat) : Bool := 0x30 ≤ c && c ≤ 0x39

/-- `isHex` of the package (ASCII hexadecimal digit). -/
def isHex (c : Nat) : Bool :=
  isDigit c || (0x61 ≤ c && c ≤ 0x66) || (0x41 ≤ c && c ≤ 0x46)

/-- `unhex` of the package. -/
def unhex (c : Nat) : Nat :=
  if 0x30 ≤ c && c ≤ 0x39 then c - 0x30
  else if 0x61 ≤ c && c ≤ 0x66 then c - 0x61 + 10
  else if 0x41 ≤ c && c ≤ 0x46 then c - 0x41 + 10
  else 0

/-- `isNumerical` of the package: no rune of the string fails the digit
test.  (`strings.IndexFunc` walks runes; a byte fails the digit test
exactly when the rune it begins or continues does, so the byte-wise check
is equivalent.) -/
def isNumerical (s : GoStr) : Bool := s.all fun b => isDigit b

/-- `unescapeSequence`: two hex digits to one byte. -/
def unescapeSequence (es : GoStr) : Except Err Nat :=
  match es with
  | c0 :: c1 :: _ =>
    if !isHex c0 || !isHex c1 then .error []
    else .ok (unhex c0 * 16 + unhex c1)
  | _ => .error []

/-- `unescapePercentEncoding`: decode the percent-escape starting right
after a `%`, following the UTF-8 leading byte through up to three further
`%HH` triplets; returns the decoded rune and the bytes consumed. -/
def unescapePercentEncoding (s : GoStr) : Except Err (Nat × Nat) :=
  match unescapeSequence s with
  | .error e => .error e
  | .ok b0 =>
    if b0 < 0xC0 then
      let (r, _) := decodeRune [b0]
      if r == runeError then .error [] else .ok (r, 2)
    else
      match s.drop 2 with
      | [] => .error []
      | p1 :: rest1 =>
        if p1 ≠ percentMark then .error []
        else
          match unescapeSequence rest1 with
          | .error e => .error e
          | .ok b1 =>
            if b0 < 0xE0 then
              let (r, _) := decodeRune [b0, b1]
              if r == runeError then .error [] else .ok (r, 5)
            else
              match rest1.drop 2 with
              | [] => .error []
              | p2 :: rest2 =>
                if p2 ≠ percentMark then .error []
                else
                  match unescapeSequence rest2 with
                  | .error e => .error e
                  | .ok b2 =>
                    if b0 < 0xF0 then
                      let (r, _) := decodeRune [b0, b1, b2]
                      if r == runeError then .error [] else .ok (r, 8)
                    else
                      match rest2.drop 2 with
                      | [] => .error []
                      | p3 :: rest3 =>
                        if p3 ≠ percentMark then .error []
                        else
                          match unescapeSequence rest3 with
                          | .error e => .error e
                          | .ok b3 =>
                            let (r, _) := decodeRune [b0, b1, b2, b3]
                            if r == runeError then .error [] else .ok (r, 11)

-- accepted runes beyond "unreserved" (uri.go).
def pcharExtraRunes : List Nat := [colonMark, atHost]
def queryOrFragmentExtraRunes : List Nat := pcharExtraRunes ++ [slashMark, questionMark]
def userInfoExtraRunes : List Nat := pcharExtraRunes ++ [colonMark]

/-- RFC 3986 `sub-delims`. -/
def isSubDelim (r : Nat) : Bool :=
  r == 0x21 || r == 0x24 || r == 0x26 || r == 0x27 || r == 0x28 || r == 0x29 ||
  r == 0x2A || r == 0x2B || r == 0x2C || r == 0x3B || r == 0x3D

/-- The character test of `validateUnreservedWithExtra`: unreserved,
sub-delims, or one of the extra runes. -/
def allowedRune (r : Nat) (extra : List Nat) : Bool :=
  unicodeIsLetter r || unicodeIsDigit r ||
  r == 0x2D || r == 0x2E || r == 0x5F || r == 0x7E ||
  isSubDelim r || extra.contains r

/-- The rune loop of `validateUnreservedWithExtra`.  `fuel` bounds the
number of iterations; every iteration consumes at least one byte, so
`s.length` iterations always suffice and the `fuel = 0` case (which
mirrors the exhausted-string exit) is unreachable from the entry point.
(Fuel keeps the recursion structural, so that concrete inputs evaluate by
kernel reduction.) -/
def unreservedLoop (extra : List Nat) : Nat → GoStr → Option Err
  | 0, _ => none
  | fuel + 1, s =>
    match s with
    | [] => none
    | b :: rest =>
      let d := decodeRune (b :: rest)
      if d.1 == runeError then some [.invalidEscaping]
      else if d.1 == percentMark then
        if ((b :: rest).drop d.2).isEmpty then some [.invalidEscaping]
        else
          match unescapePercentEncoding ((b :: rest).drop d.2) with
          | .error e => some (.invalidEscaping :: e)
          | .ok ro => unreservedLoop extra fuel (((b :: rest).drop d.2).drop ro.2)
      else if !allowedRune d.1 extra then some []
      else unreservedLoop extra fuel ((b :: rest).drop d.2)

/-- `validateUnreservedWithExtra`: walk the string rune by rune, decoding
percent-escapes (which are accepted whatever rune they encode, provided
the escape itself is a valid UTF-8 escape sequence), and checking every
plain rune against unreserved / sub-delims / extra. -/
def validateUnreservedWithExtra (s : GoStr) (extra : List Nat) : Option Err :=
  unreservedLoop extra s.length s

/-- The rune loop of `validateScheme` (`for i, r := range scheme`); `first`
is true on the first rune (`i == 0`).  `fuel` bounds the iterations;
`s.length` always suffices. -/
def schemeLoop : Nat → GoStr → Bool → Option Err
  | 0, _, _ => none
  | fuel + 1, s, first =>
    match s with
    | [] => none
    | b :: rest =>
      let d := decodeRune (b :: rest)
      if first then
        if !unicodeIsLetter d.1 then some [.invalidScheme]
        else schemeLoop fuel ((b :: rest).drop d.2) false
      else
        if !unicodeIsLetter d.1 && !unicodeIsDigit d.1 &&
           d.1 != 0x2B && d.1 != 0x2D && d.1 != 0x2E then some [.invalidScheme]
        else schemeLoop fuel ((b :: rest).drop d.2) false

/-- `(*uri).validateScheme`: byte length at least 2, first rune a letter,
remaining runes letter / digit / `+` / `-` / `.`. -/
def validateScheme (scheme : GoStr) : Option Err :=
  if scheme.length < 2 then some [.invalidScheme]
  else schemeLoop scheme.length scheme true

/-- `(*uri).validateQuery`. -/
def validateQuery (query : GoStr) : Option Err :=
  match validateUnreservedWithExtra query queryOrFragmentExtraRunes with
  | some e => some (.invalidQuery :: e)
  | none => none

/-- `(*uri).validateFragment`. -/
def validateFragment (fragment : GoStr) : Option Err :=
  match validateUnreservedWithExtra fragment queryOrFragmentExtraRunes with
  | some e => some (.invalidFragment :: e)
  | none => none

/-- The byte loop of `validateIPv4` (ip.go): state machine over
`(partNum, digitNum, currentPart[0], currentPart[1])`.  (`currentPart[2]`
is written but never read.) -/
def ipv4Loop (s : GoStr) (partNum digitNum c0 c1 : Nat) : Option Err :=
  match s with
  | [] => if partNum < 3 then some [.invalidHostAddress] else none
  | b :: rest =>
    if isDigit b then
      if digitNum == 0 then
        if b > 0x32 then some [.invalidHostAddress]
        else ipv4Loop rest partNum 1 b c1
      else if digitNum == 1 then
        if c0 == 0x32 && b > 0x35 then some [.invalidHostAddress]
        else ipv4Loop rest partNum 2 c0 b
      else if digitNum == 2 then
        if c0 == 0x32 && c1 == 0x35 && b > 0x35 then some [.invalidHostAddress]
        else ipv4Loop rest partNum 3 c0 c1
      else some [.invalidHostAddress]
    else if b == dotSeparator then
      if digitNum == 0 then some [.invalidHostAddress]
      else if digitNum > 1 && c0 == 0x30 then some [.invalidHostAddress]
      else if partNum + 1 > 3 then some [.invalidHostAddress]
      else ipv4Loop rest (partNum + 1) 0 c0 c1
    else some [.invalidHostAddress]

/-- `validateIPv4` (ip.go). -/
def validateIPv4 (host : GoStr) : Option Err := ipv4Loop host 0 0 0 0

/-- The rune scan of `validateIPvFuture`: hex digits up to a `.`, then a
non-empty remainder validated as unreserved plus the userinfo extras.
`fuel` bounds the iterations; `s.length` always suffices. -/
def ipvFutureScan : Nat → GoStr → Bool → Option Err
  | 0, _, _ => some []
  | fuel + 1, s, foundHex =>
    match s with
    | [] => some []
    | b :: rest =>
      let d := decodeRune (b :: rest)
      if d.1 == dotSeparator then
        if !foundHex then some []
        else if ((b :: rest).drop d.2).isEmpty then some []
        else validateUnreservedWithExtra ((b :: rest).drop d.2) userInfoExtraRunes
      else if !isHex d.1 then some []
      else ipvFutureScan fuel ((b :: rest).drop d.2) true

/-- `validateIPvFuture` (ip.go); the argument is the host with the heading
`v` removed. -/
def validateIPvFuture (address : GoStr) : Option Err :=
  ipvFutureScan address.length address false

/-- Modelled from the Go standard library: the outcome of
`net/netip.ParseAddr` (error, IPv4 address, or IPv6 address; `Is6()` is
true exactly for the `v6` outcome, including IPv4-in-IPv6 forms). -/
inductive AddrKind where
  | invalid
  | v4
  | v6
  deriving DecidableEq, Repr

/-- Numeric value of a decimal digit string. -/
def natOfDigits (s : GoStr) : Nat := s.foldl (fun a b => a * 10 + (b - 0x30)) 0

/-- Modelled from the Go standard library `netip` IPv4 textual parser:
exactly four dot-separated fields, each 1-3 decimal digits, value at most
255, no leading zero. -/
def netipParseIPv4 (s : GoStr) : Bool :=
  let fields := s.splitOn dotSeparator
  fields.length == 4 && fields.all fun f =>
    1 ≤ f.length && f.length ≤ 3 && f.all isDigit &&
    natOfDigits f ≤ 255 && !(f.length > 1 && f.head? == some 0x30)

/-- Count of leading ASCII hex digits. -/
def countHex (s : GoStr) : Nat :=
  match s with
  | [] => 0
  | b :: rest => if isHex b then countHex rest + 1 else 0

/-- Value of a hex digit string. -/
def hexValue (s : GoStr) : Nat := s.foldl (fun a b => a * 16 + unhex b) 0

/-- Final acceptance check of the `netip` IPv6 parser once the input is
exhausted: a `::` must be present exactly when fewer than 16 bytes were
filled. -/
def netipV6Final (i : Nat) (ellipsis : Option Nat) : Bool :=
  if i < 16 then ellipsis.isSome else ellipsis.isNone

/-- Modelled from the Go standard library `netip` IPv6 textual parser:
one iteration per 16-bit field (at most eight, counted by `fuel`), with
`::` tracking and an optional embedded IPv4 in the last 32 bits.  `i` is
the number of address bytes already filled.  A group of more than 4 hex
digits fails (`"each group must have 4 or less digits"`), as does a group
value above `0xFFFF`. -/
def netipV6Loop (s : GoStr) (i : Nat) (ellipsis : Option Nat) (fuel : Nat) : Bool :=
  match fuel with
  | 0 => false
  | fuel + 1 =>
    let off := countHex s
    if off == 0 then false
    else if 4 < off then false
    else if hexValue (s.take off) > 0xFFFF then false
    else if (s.drop off).head? == some dotSeparator then
      if ellipsis.isNone && i != 12 then false
      else if i + 4 > 16 then false
      else if !netipParseIPv4 s then false
      else netipV6Final (i + 4) ellipsis
    else
      let i' := i + 2
      let s1 := s.drop off
      if s1.isEmpty then netipV6Final i' ellipsis
      else if s1.head? != some colonMark then false
      else if s1.length == 1 then false
      else
        let s2 := s1.drop 1
        if s2.head? == some colonMark then
          if ellipsis.isSome then false
          else
            let s3 := s2.drop 1
            if s3.isEmpty then netipV6Final i' (some i')
            else if i' < 16 then netipV6Loop s3 i' (some i') fuel
            else false
        else if i' < 16 then netipV6Loop s2 i' ellipsis fuel
        else false

/-- Modelled from the Go standard library `netip` IPv6 textual parser
(entry point).  Zone identifiers are not modelled: the package only hands
zone-free strings to it. -/
def netipParseIPv6 (s : GoStr) : Bool :=
  if s.contains percentMark then false
  else
    let hasEllipsis := s.take 2 == [colonMark, colonMark]
    let s1 := if hasEllipsis then s.drop 2 else s
    if hasEllipsis && s1.isEmpty then true
    else netipV6Loop s1 0 (if hasEllipsis then some 0 else none) 16

/-- Modelled from the Go standard library `net/netip.ParseAddr`: dispatch
on the first `.`, `:` or `%` byte. -/
def netipParseAddr (s : GoStr) : AddrKind :=
  match s.find? (fun b => b == dotSeparator || b == colonMark || b == percentMark) with
  | some b =>
    if b == dotSeparator then (if netipParseIPv4 s then .v4 else .invalid)
    else if b == colonMark then (if netipParseIPv6 s then .v6 else .invalid)
    else .invalid
  | none => .invalid

/-- `validateIPv6` (ip.go): IPvFuture escape for a leading `v`, otherwise
a valid IPv6 address optionally followed by a `%25`-escaped non-empty zone
identifier of unreserved or percent-encoded characters.  (The `[]` case is
unreachable: every caller guards `host != ""`.) -/
def validateIPv6 (host : GoStr) : Option Err :=
  match host with
  | [] => some [.invalidHostAddress]
  | h0 :: _ =>
    if h0 == 0x76 || h0 == 0x56 then
      match validateIPvFuture (host.drop 1) with
      | some e => some (.invalidHostAddress :: e)
      | none => none
    else
      let idx := indexByte host percentMark
      if idx == 0 then some [.invalidHostAddress]
      else
        let ipv6WithoutZone := if idx > 0 then host.take idx.toNat else host
        let zoneID := if idx > 0 then host.drop idx.toNat else []
        match netipParseAddr ipv6WithoutZone with
        | .invalid => some [.invalidHostAddress]
        | .v4 => some [.invalidHostAddress]
        | .v6 =>
          if zoneID.isEmpty then none
          else if zoneID.length < 4 || zoneID.get? 1 != some 0x32 ||
                  zoneID.get? 2 != some 0x35 then
            some [.invalidHostAddress]
          else
            match validateUnreservedWithExtra zoneID [] with
            | some e => some (.invalidHostAddress :: e)
            | none => none

/-- `UsesDNSHostValidation` (dns.go): the schemes whose host is validated
as a DNS name. -/
def UsesDNSHostValidation (scheme : GoStr) : Bool :=
  scheme == cs ['d','n','s'] || scheme == cs ['d','n','t','p'] ||
  scheme == cs ['f','i','n','g','e','r'] || scheme == cs ['f','t','p'] ||
  scheme == cs ['g','i','t'] || scheme == cs ['h','t','t','p'] ||
  scheme == cs ['h','t','t','p','s'] || scheme == cs ['i','m','a','p'] ||
  scheme == cs ['i','r','c'] || scheme == cs ['j','m','s'] ||
  scheme == cs ['m','a','i','l','t','o'] || scheme == cs ['n','f','s'] ||
  scheme == cs ['n','n','t','p'] || scheme == cs ['n','t','p'] ||
  scheme == cs ['p','o','s','t','g','r','e','s'] || scheme == cs ['r','e','d','i','s'] ||
  scheme == cs ['r','m','i'] || scheme == cs ['r','t','s','p'] ||
  scheme == cs ['r','s','y','n','c'] || scheme == cs ['s','f','t','p'] ||
  scheme == cs ['s','k','y','p','e'] || scheme == cs ['s','m','t','p'] ||
  scheme == cs ['s','n','m','p'] || scheme == cs ['s','o','a','p'] ||
  scheme == cs ['s','s','h'] || scheme == cs ['s','t','e','a','m'] ||
  scheme == cs ['s','v','n'] || scheme == cs ['t','c','p'] ||
  scheme == cs ['t','e','l','n','e','t'] || scheme == cs ['u','d','p'] ||
  scheme == cs ['v','n','c'] || scheme == cs ['w','a','i','s'] ||
  scheme == cs ['w','s'] || scheme == cs ['w','s','s']

/-- `validateFirstRuneInSegment` (dns.go): the first rune of a DNS label,
percent-escapes decoded, must be a letter; returns the rune and the bytes
consumed. -/
def validateFirstRuneInSegment (s : GoStr) : Except Err (Nat × Nat) :=
  match s with
  | [] => .error [.invalidDNSName]
  | b :: rest =>
    let d := decodeRune (b :: rest)
    if d.1 == runeError then .error [.invalidDNSName]
    else if d.1 == dotSeparator then .error [.invalidDNSName]
    else if d.1 == percentMark then
      if (rest.drop (d.2 - 1)).isEmpty then .error [.invalidEscaping]
      else
        match unescapePercentEncoding (rest.drop (d.2 - 1)) with
        | .error e => .error ([.invalidDNSName, .invalidEscaping] ++ e)
        | .ok ro =>
          if !unicodeIsLetter ro.1 then .error [.invalidDNSName]
          else .ok (ro.1, d.2 + ro.2)
    else
      if !unicodeIsLetter d.1 then .error [.invalidDNSName]
      else .ok (d.1, d.2)

/-- The rune loop of `validateHostSegment` (dns.go): `rem` is the part of
the segment input not yet consumed, `offset` the bytes consumed so far,
`last` the previous rune, `once` whether the loop body ran.  `fuel` bounds
the iterations; `rem.length` always suffices, and the `fuel = 0` case
mirrors the exhausted-string exit. -/
def segLoop : Nat → GoStr → Nat → Nat → Bool → Except Err (Nat × Nat)
  | 0, _, offset, last, once =>
    if once && !(unicodeIsLetter last || unicodeIsDigit last) then
      .error [.invalidDNSName]
    else .ok (last, offset)
  | fuel + 1, rem, offset, last, once =>
    match rem with
    | [] =>
      if once && !(unicodeIsLetter last || unicodeIsDigit last) then
        .error [.invalidDNSName]
      else .ok (last, offset)
    | b :: rest =>
      let d := decodeRune (b :: rest)
      if d.1 == runeError then .error [.invalidDNSName]
      else
        let esc : Except Err (Nat × Nat) :=
          if d.1 == percentMark then
            if ((b :: rest).drop d.2).isEmpty then
              .error [.invalidDNSName, .invalidEscaping]
            else
              match unescapePercentEncoding ((b :: rest).drop d.2) with
              | .error e => .error ([.invalidDNSName, .invalidEscaping] ++ e)
              | .ok ro => .ok (ro.1, d.2 + ro.2)
          else .ok (d.1, d.2)
        match esc with
        | .error e => .error e
        | .ok rc =>
          let offset1 := offset + rc.2
          if rc.1 == dotSeparator then
            if ((b :: rest).drop rc.2).isEmpty then .error [.invalidDNSName]
            else if !(unicodeIsLetter last || unicodeIsDigit last) then
              .error [.invalidDNSName]
            else .ok (dotSeparator, offset1)
          else if offset1 > maxSegmentLength then .error [.invalidDNSName]
          else if !(unicodeIsLetter rc.1 || unicodeIsDigit rc.1 || rc.1 == 0x2D) then
            .error [.invalidDNSName]
          else segLoop fuel ((b :: rest).drop rc.2) offset1 rc.1 true

/-- `validateHostSegment` (dns.go): one DNS label (with percent-escaped
separators supported); returns the terminating rune and the bytes
consumed. -/
def validateHostSegment (s : GoStr) : Except Err (Nat × Nat) :=
  match validateFirstRuneInSegment s with
  | .error e => .error e
  | .ok fr => segLoop (s.drop fr.2).length (s.drop fr.2) fr.2 fr.1 false

/-- The segment loop of `validateDNSHostForScheme`
(`for offset := 0; offset < len(host);`): `fuel` bounds the number of
iterations; `host.length` iterations always suffice because every segment
consumes at least one byte. -/
def dnsLoop (host : GoStr) (offset : Nat) (fuel : Nat) : Option Err :=
  match fuel with
  | 0 => none
  | fuel + 1 =>
    if offset < host.length then
      match validateHostSegment (host.drop offset) with
      | .error e => some e
      | .ok lc =>
        if lc.1 == dotSeparator then dnsLoop host (offset + lc.2) fuel else none
    else none

/-- `validateDNSHostForScheme` (dns.go): byte length at most 255, not
empty, then label-by-label validation. -/
def validateDNSHostForScheme (host : GoStr) : Option Err :=
  if host.length > maxDomainLength then some [.invalidDNSName]
  else if host.length == 0 then some [.invalidDNSName]
  else dnsLoop host 0 host.length

/-- `validateRegisteredHostForScheme` (uri.go): RFC 3986 registered
name. -/
def validateRegisteredHostForScheme (host : GoStr) : Option Err :=
  match validateUnreservedWithExtra host [] with
  | some e => some (.invalidRegisteredName :: e)
  | none => none

/-- `validateHostForScheme` (uri.go): for each scheme, DNS validation when
`UsesDNSHostValidation`, then always registered-name validation. -/
def validateHostForScheme (host : GoStr) (schemes : List GoStr) : Option Err :=
  match schemes with
  | [] => none
  | scheme :: rest =>
    match (if UsesDNSHostValidation scheme then validateDNSHostForScheme host else none) with
    | some e => some e
    | none =>
      match validateRegisteredHostForScheme host with
      | some e => some e
      | none => validateHostForScheme host rest

/-- `ipType` (uri.go). -/
structure IpType where
  isIPv4 : Bool := false
  isIPv6 : Bool := false
  isIPvFuture : Bool := false
  deriving DecidableEq, Repr

/-- `authorityInfo` (uri.go); `pre` is the `prefix` field of the source. -/
structure AuthorityInfo where
  pre : GoStr := []
  userinfo : GoStr := []
  host : GoStr := []
  port : GoStr := []
  path : GoStr := []
  ipType : IpType := {}
  deriving DecidableEq, Repr

/-- The segment loop of `validatePath`: validate each non-empty run of
bytes between `/` separators as pchar (`/` is ASCII, so splitting on the
byte equals the source's rune walk). -/
def pathSegLoop (p : GoStr) (seg : GoStr) : Option Err :=
  match p with
  | [] =>
    if seg.isEmpty then none
    else
      match validateUnreservedWithExtra seg pcharExtraRunes with
      | some e => some (.invalidPath :: e)
      | none => none
  | b :: rest =>
    if b == slashMark then
      match (if seg.isEmpty then none else validateUnreservedWithExtra seg pcharExtraRunes) with
      | some e => some (.invalidPath :: e)
      | none => pathSegLoop rest []
    else pathSegLoop rest (seg ++ [b])

/-- `authorityInfo.validatePath` (uri.go): no leading `//` without an
authority, and every path segment made of pchar. -/
def validatePath (a : AuthorityInfo) (path : GoStr) : Option Err :=
  if a.host.isEmpty && a.port.isEmpty && decide (2 ≤ path.length) &&
     path.take 2 == [slashMark, slashMark] then
    some [.invalidPath]
  else pathSegLoop path []

/-- `authorityInfo.validatePort` (uri.go). -/
def validatePort (port host : GoStr) : Option Err :=
  if !isNumerical port then some [.invalidPort]
  else if host.isEmpty then some [.missingHost]
  else none

/-- `authorityInfo.validateUserInfo` (uri.go). -/
def validateUserInfo (userinfo : GoStr) : Option Err :=
  match validateUnreservedWithExtra userinfo userInfoExtraRunes with
  | some e => some (.invalidUserInfo :: e)
  | none => none

/-- `authorityInfo.validateHost` (uri.go): bracketed hosts are IPvFuture
(leading `v`/`V`) or IPv6; bare hosts are IPv4 or DNS/registered names.
(The `[]` case under `isIPv6` is unreachable: the caller guards
`host != ""`, and Go would panic on `host[0]`.) -/
def validateHost (host : GoStr) (isIPv6 : Bool) (schemes : List GoStr) :
    Except Err IpType :=
  if isIPv6 then
    match host with
    | h0 :: _ =>
      if h0 == 0x76 || h0 == 0x56 then
        match validateIPvFuture (host.drop 1) with
        | some e => .error (.invalidHostAddress :: e)
        | none => .ok { isIPv6 := true, isIPvFuture := true }
      else
        match validateIPv6 host with
        | some e => .error e
        | none => .ok { isIPv6 := true }
    | [] => .error [.invalidHostAddress]
  else
    match validateIPv4 host with
    | none => .ok { isIPv4 := true }
    | some _ =>
      match validateHostForScheme host schemes with
      | some e => .error (.invalidHost :: e)
      | none => .ok {}

/-- `authorityInfo.validate` (uri.go): path, host, port, userinfo in
order; returns the host kind. -/
def authorityValidate (a : AuthorityInfo) (schemes : List GoStr) :
    Except Err IpType :=
  match (if a.path.isEmpty then none else validatePath a a.path) with
  | some e => .error e
  | none =>
    match (if a.host.isEmpty then .ok {} else validateHost a.host a.ipType.isIPv6 schemes :
           Except Err IpType) with
    | .error e => .error e
    | .ok ip =>
      match (if a.port.isEmpty then none else validatePort a.port a.host) with
      | some e => .error e
      | none =>
        match (if a.userinfo.isEmpty then none else validateUserInfo a.userinfo) with
        | some e => .error e
        | none => .ok ip

/-- `parseAuthority` (uri.go): split the hier-part into authority marker,
userinfo, host (possibly bracketed), port and path. -/
def parseAuthority (hier : GoStr) : Except Err AuthorityInfo :=
  if !goStartsWith hier authorityPre then
    .ok { path := hier }
  else
    let rest := hier.drop 2
    let slashEnd := indexByte rest slashMark
    let path := if slashEnd > -1 then rest.drop slashEnd.toNat else []
    let hier1 := if slashEnd > -1 then rest.take slashEnd.toNat else rest
    let at_ := indexByte hier1 atHost
    let userinfo := if at_ > 0 then hier1.take at_.toNat else []
    let host1 :=
      if at_ > 0 then
        (if at_ + 1 < (hier1.length : Int) then hier1.drop (at_ + 1).toNat else hier1)
      else hier1
    let bracket := indexByte host1 openingBracketMark
    if bracket ≥ 0 then
      let closingbracket := indexByte host1 closingBracketMark
      if closingbracket > bracket + 1 then
        let host2 := goSlice host1 (bracket + 1) closingbracket
        let rawHost := host1.drop (closingbracket + 1).toNat
        let colon := indexByte rawHost colonMark
        let port :=
          if colon ≥ 0 && colon + 1 < (rawHost.length : Int) then
            rawHost.drop (colon + 1).toNat
          else []
        .ok { pre := authorityPre, userinfo, host := host2, port, path,
              ipType := { isIPv6 := true } }
      else if closingbracket > bracket then .error [.invalidHostAddress]
      else .error [.invalidHostAddress]
    else
      let colon := indexByte host1 colonMark
      let port :=
        if colon ≥ 0 && colon + 1 < (host1.length : Int) then
          host1.drop (colon + 1).toNat
        else []
      let host2 := if colon ≥ 0 then host1.take colon.toNat else host1
      .ok { pre := authorityPre, userinfo, host := host2, port, path }

/-- `uri` (uri.go): the parsed value. -/
structure Uri where
  scheme : GoStr := []
  hierPart : GoStr := []
  query : GoStr := []
  fragment : GoStr := []
  authority : AuthorityInfo := {}
  deriving DecidableEq, Repr

/-- `(*uri).Validate` (uri.go): scheme, query, fragment, then the
authority; on success the host kind is written back into the value (the
source mutates `u.authority.ipType` through the receiver pointer), so the
post-call value is returned alongside the error. -/
def uriValidate (u : Uri) : Option Err × Uri :=
  match (if u.scheme.isEmpty then none else validateScheme u.scheme) with
  | some e => (some e, u)
  | none =>
    match (if u.query.isEmpty then none else validateQuery u.query) with
    | some e => (some e, u)
    | none =>
      match (if u.fragment.isEmpty then none else validateFragment u.fragment) with
      | some e => (some e, u)
      | none =>
        if u.hierPart.isEmpty then (none, u)
        else
          match authorityValidate u.authority [u.scheme] with
          | .error e => (some e, u)
          | .ok ip => (none, { u with authority := { u.authority with ipType := ip } })

/-- Lines 237-283 of `parse` (uri.go): the trailing-`#` branch, the
fragment branch, and the final assembly. -/
def parseTail (raw : GoStr) (curr hierPartEnd queryEnd : Int)
    (scheme hierPart query : GoStr) (authority : AuthorityInfo) :
    Option Uri × Option Err :=
  if queryEnd == (raw.length : Int) - 1 && hierPartEnd < 0 then
    let hierPart := goSlice raw curr queryEnd
    match parseAuthority hierPart with
    | .error e => (none, some (.invalidURI :: e))
    | .ok authority =>
      let u : Uri := { scheme, hierPart, query, authority }
      let ve := uriValidate u
      match ve.1 with
      | some e => (none, some e)
      | none => (some ve.2, none)
  else if queryEnd > 0 then
    if hierPartEnd < 0 then
      let hierPart := goSlice raw curr queryEnd
      match parseAuthority hierPart with
      | .error e => (none, some (.invalidURI :: e))
      | .ok authority =>
        let fragment :=
          if queryEnd + 1 < (raw.length : Int) then raw.drop (queryEnd + 1).toNat
          else []
        let u : Uri := { scheme, hierPart, query, fragment, authority }
        let ve := uriValidate u
        (some ve.2, ve.1)
    else
      let fragment :=
        if queryEnd + 1 < (raw.length : Int) then raw.drop (queryEnd + 1).toNat
        else []
      let u : Uri := { scheme, hierPart, query, fragment, authority }
      let ve := uriValidate u
      (some ve.2, ve.1)
  else
    let u : Uri := { scheme, hierPart, query, authority }
    let ve := uriValidate u
    (some ve.2, ve.1)

/-- `parse` after the scheme switch (uri.go lines 189-283):
`curr := schemeEnd + 1`, then the no-query/no-fragment branch or the
query/fragment decomposition. -/
def parseAfterScheme (raw : GoStr) (schemeEnd hierPartEnd queryEnd : Int)
    (scheme : GoStr) : Option Uri × Option Err :=
  let curr := schemeEnd + 1
  if hierPartEnd == (raw.length : Int) - 1 || (hierPartEnd < 0 && queryEnd < 0) then
    let hEnd := if hierPartEnd < 0 then (raw.length : Int) else hierPartEnd
    match parseAuthority (goSlice raw curr hEnd) with
    | .error e => (none, some (.invalidURI :: e))
    | .ok authority =>
      let u : Uri := { scheme, hierPart := goSlice raw curr hEnd, authority }
      let ve := uriValidate u
      (some ve.2, ve.1)
  else if hierPartEnd > 0 then
    let hierPart := goSlice raw curr hierPartEnd
    match parseAuthority hierPart with
    | .error e => (none, some (.invalidURI :: e))
    | .ok authority =>
      let query :=
        if hierPartEnd + 1 < (raw.length : Int) then
          if queryEnd < 0 then raw.drop (hierPartEnd + 1).toNat
          else if hierPartEnd < queryEnd - 1 then goSlice raw (hierPartEnd + 1) queryEnd
          else []
        else []
      parseTail raw (hierPartEnd + 1) hierPartEnd queryEnd scheme hierPart query authority
  else
    parseTail raw curr hierPartEnd queryEnd scheme [] [] {}

/-- `parse` (uri.go): locate the first `:`, `?`, `#`; reject pathological
inputs; resolve the scheme (mandatory unless parsing a reference); then
decompose hier-part, query and fragment. -/
def parse (raw : GoStr) (withURIReference : Bool) : Option Uri × Option Err :=
  let schemeEnd := indexByte raw colonMark
  let hierPartEnd := indexByte raw questionMark
  let queryEnd := indexByte raw fragmentMark
  if schemeEnd == 0 || hierPartEnd == 0 || queryEnd == 0 then
    (none, some [.invalidURI])
  else if schemeEnd == 1 then (none, some [.invalidScheme])
  else if hierPartEnd == 1 || queryEnd == 1 then (none, some [.invalidURI])
  else if (hierPartEnd > 0 && hierPartEnd < schemeEnd) ||
          (queryEnd > 0 && queryEnd < schemeEnd) then
    (none, some [.invalidURI])
  else
    let hierPartEnd1 := if queryEnd > 0 && queryEnd < hierPartEnd then queryEnd else hierPartEnd
    let isRelative := goStartsWith raw authorityPre
    if schemeEnd > 0 && !isRelative then
      let scheme := goSlice raw 0 schemeEnd
      if schemeEnd + 1 == (raw.length : Int) then
        let u : Uri := { scheme }
        let ve := uriValidate u
        (some ve.2, ve.1)
      else parseAfterScheme raw schemeEnd hierPartEnd1 queryEnd scheme
    else if !withURIReference then (none, some [.noSchemeFound])
    else if isRelative then parseAfterScheme raw (-1) hierPartEnd1 queryEnd []
    else parseAfterScheme raw schemeEnd hierPartEnd1 queryEnd []

/-- `Parse` (uri.go). -/
def Parse (raw : GoStr) : Option Uri × Option Err := parse raw false

/-- `ParseReference` (uri.go). -/
def ParseReference (raw : GoStr) : Option Uri × Option Err := parse raw true

/-- `IsURI` (uri.go): `err == nil`. -/
def IsURI (raw : GoStr) : Bool := (parse raw false).2 == none

/-- `IsURIReference` (uri.go): `err == nil`. -/
def IsURIReference (raw : GoStr) : Bool := (parse raw true).2 == none

/-- `authorityInfo.String` (uri.go): marker, userinfo (with `@`), host
(bracketed when IPv6), `:` and port when the port is non-empty, path. -/
def authorityString (a : AuthorityInfo) : GoStr :=
  a.pre ++ a.userinfo ++ (if 0 < a.userinfo.length then [atHost] else []) ++
  (if a.ipType.isIPv6 then openingBracketMark :: a.host ++ [closingBracketMark]
   else a.host) ++
  (if 0 < a.port.length then [colonMark] else []) ++ a.port ++ a.path

/-- `(*uri).String` (uri.go): scheme with `:` when non-empty, authority,
`?` and query when non-empty, `#` and fragment when non-empty. -/
def uriString (u : Uri) : GoStr :=
  (if 0 < u.scheme.length then u.scheme ++ [colonMark] else []) ++
  authorityString u.authority ++
  (if 0 < u.query.length then questionMark :: u.query else []) ++
  (if 0 < u.fragment.length then fragmentMark :: u.fragment else [])

/-- `(*uri).Builder` (uri.go): `return u` — the builder IS the receiver;
no copy is made. -/
def uriBuilder (u : Uri) : Uri := u

/-- `(*uri).Build` (uri.go): `return u`. -/
def uriBuild (u : Uri) : Uri := u

/-- `(*uri).SetScheme` (uri.go): assign the field through the receiver
pointer and return the same object. -/
def uriSetScheme (u : Uri) (scheme : GoStr) : Uri := { u with scheme }

/-- `(*uri).SetQuery` (uri.go). -/
def uriSetQuery (u : Uri) (query : GoStr) : Uri := { u with query }

/-- `(*uri).SetFragment` (uri.go). -/
def uriSetFragment (u : Uri) (fragment : GoStr) : Uri := { u with fragment }

/-- `(*uri).SetUserInfo` (uri.go). -/
def uriSetUserInfo (u : Uri) (userinfo : GoStr) : Uri :=
  { u with authority := { u.authority with userinfo } }

/-- `(*uri).SetHost` (uri.go). -/
def uriSetHost (u : Uri) (host : GoStr) : Uri :=
  { u with authority := { u.authority with host } }

/-- `(*uri).SetPort` (uri.go). -/
def uriSetPort (u : Uri) (port : GoStr) : Uri :=
  { u with authority := { u.authority with port } }

/-- `(*uri).SetPath` (uri.go). -/
def uriSetPath (u : Uri) (path : GoStr) : Uri :=
  { u with authority := { u.authority with path } }

/-- `Scheme()` observed on a previously parsed URI `u` after the Go
statements `b := u.Builder(); b.SetScheme(s)`: because `Builder()` returns
the receiver pointer, `b` aliases `u`, and reading `u.Scheme()` afterwards
sees the assignment — this function is that observation. -/
def schemeAfterBuilderSetScheme (u : Uri) (s : GoStr) : GoStr :=
  (uriSetScheme (uriBuilder u) s).scheme

/-! ### Basic lemmas about the string primitives -/

theorem indexByte_nonneg_iff (s : GoStr) (b : Nat) :
    0 ≤ indexByte s b ↔ b ∈ s := by
  induction s with
  | nil => simp [indexByte]
  | cons x rest ih =>
    simp only [indexByte]
    by_cases hx : x = b
    · subst hx; simp
    · simp only [beq_iff_eq, hx, if_false, List.mem_cons]
      by_cases hneg : indexByte rest b < 0
      · simp only [hneg, if_true]
        constructor
        · intro hcon; omega
        · intro hmem
          rcases hmem with h1 | h2
          · exact absurd h1.symm hx
          · rw [← ih] at h2; omega
      · simp only [hneg, if_false]
        constructor
        · intro _; right; rw [← ih]; omega
        · intro _; omega

theorem indexByte_ge (s : GoStr) (b : Nat) : -1 ≤ indexByte s b := by
  induction s with
  | nil => simp [indexByte]
  | cons x rest ih =>
    simp only [indexByte]
    split
    · omega
    · split <;> omega

theorem indexByte_neg_iff (s : GoStr) (b : Nat) :
    indexByte s b = -1 ↔ b ∉ s := by
  constructor
  · intro h hmem
    rw [← indexByte_nonneg_iff] at hmem; omega
  · intro hmem
    induction s with
    | nil => simp [indexByte]
    | cons x rest ih =>
      simp only [List.mem_cons, not_or] at hmem
      have hxb : ¬(x = b) := fun hc => hmem.1 hc.symm
      simp only [indexByte, beq_iff_eq, hxb, if_false]
      have := ih hmem.2
      simp [this]

theorem indexByte_split (s : GoStr) (b : Nat) (i : Nat)
    (h : indexByte s b = (i : Int)) :
    i < s.length ∧ s.take i ++ b :: s.drop (i + 1) = s ∧ b ∉ s.take i := by
  induction s generalizing i with
  | nil => simp [indexByte] at h
  | cons x rest ih =>
    simp only [indexByte] at h
    by_cases hx : x = b
    · subst hx
      simp only [beq_self_eq_true, if_true] at h
      have : i = 0 := by omega
      subst this
      simp
    · simp only [beq_iff_eq, hx, if_false] at h
      by_cases hneg : indexByte rest b < 0
      · simp only [hneg, if_true] at h; omega
      · simp only [hneg, if_false] at h
        have hi : 1 ≤ i := by omega
        obtain ⟨j, hj⟩ : ∃ j : Nat, i = j + 1 := ⟨i - 1, by omega⟩
        subst hj
        have hrest : indexByte rest b = (j : Int) := by omega
        obtain ⟨h1, h2, h3⟩ := ih j hrest
        refine ⟨by simp; omega, ?_, ?_⟩
        · simp only [List.take_succ_cons, List.drop_succ_cons]
          simp [h2]
        · simp only [List.take_succ_cons, List.mem_cons, not_or]
          exact ⟨fun hc => hx hc.symm, h3⟩

theorem indexByte_append_not_mem (s t : GoStr) (b : Nat) (h : b ∉ s) :
    indexByte (s ++ t) b =
      if 0 ≤ indexByte t b then (s.length : Int) + indexByte t b else -1 := by
  induction s with
  | nil =>
    have := indexByte_ge t b
    simp only [List.nil_append, List.length_nil, Int.ofNat_zero, zero_add]
    split <;> omega
  | cons x rest ih =>
    simp only [List.mem_cons, not_or] at h
    have hxb : ¬(x = b) := fun hc => h.1 hc.symm
    simp only [List.cons_append, indexByte, beq_iff_eq, hxb, if_false, List.append_eq]
    rw [ih h.2]
    by_cases ht : 0 ≤ indexByte t b
    · simp only [ht, if_true]
      have : ¬ ((rest.length : Int) + indexByte t b < 0) := by omega
      simp only [this, if_false, List.length_cons]
      push_cast
      ring
    · simp only [ht, if_false]
      norm_num

theorem indexByte_cons_ne (x : Nat) (s : GoStr) (b : Nat) (h : x ≠ b) :
    indexByte (x :: s) b =
      if 0 ≤ indexByte s b then indexByte s b + 1 else -1 := by
  simp only [indexByte, beq_iff_eq, h, if_false]
  split <;> split <;> omega

/-! ### C2 — IPv4 validation -/

/-- The dec-octet grammar stated by the claim (and by the validator's own
doc comment): 1-3 decimal digits, value 0-255, no leading zero when longer
than one digit. -/
def claimDecOctet (f : GoStr) : Bool :=
  1 ≤ f.length && f.length ≤ 3 && f.all isDigit &&
  natOfDigits f ≤ 255 && !(decide (1 < f.length) && f.head? == some 0x30)

/-- The IPv4 host shape stated by the claim: exactly four dec-octets
separated by `.`. -/
def claimIPv4 (host : GoStr) : Bool :=
  let fields := host.splitOn dotSeparator
  fields.length == 4 && fields.all claimDecOctet

/-- C2 (code_bug): `8.8.8.8` satisfies the claimed dec-octet grammar (and
the grammar in the validator's own doc comment), yet `validateIPv4`
rejects it — the state machine refuses any octet whose first digit
exceeds `2` — so `Parse("http://8.8.8.8")` fails instead of producing an
IPv4 host. -/
theorem C2_ipv4_dotted_quad_code_bug :
    claimIPv4 (cs ['8','.','8','.','8','.','8']) = true ∧
    validateIPv4 (cs ['8','.','8','.','8','.','8']) = some [.invalidHostAddress] ∧
    (Parse (cs ['h','t','t','p',':','/','/','8','.','8','.','8','.','8'])).2.isSome = true := by
  refine ⟨by decide, by decide, by decide⟩

/-! ### C8 — builder aliasing -/

/-- `Authority().Host()` observed on a previously parsed URI after the Go
statements `b := u.Builder(); b.SetHost(h)` — `Builder()` returns the
receiver, so the observation sees the assignment. -/
def hostAfterBuilderSetHost (u : Uri) (h : GoStr) : GoStr :=
  (uriSetHost (uriBuilder u) h).authority.host

def C8input : GoStr := cs ['h','t','t','p',':']

def C8parsed : Uri := { scheme := cs ['h','t','t','p'] }

/-- C8 counterexample: parse `http:`, take its builder, set the scheme to
`ftp`; the scheme observed on the previously returned URI is no longer
`http` — the builder aliases the URI. -/
theorem C8_builder_never_aliases_counterexample :
    Parse C8input = (some C8parsed, none) ∧
    schemeAfterBuilderSetScheme C8parsed (cs ['f','t','p']) ≠ C8parsed.scheme := by
  exact ⟨by decide, by decide⟩

/-- C8 amended: `Builder()` returns the receiver itself, so mutating the
builder mutates the previously returned URI in place: after
`u.Builder().SetScheme(s)` the scheme observed on `u` is `s`, and after
`u.Builder().SetHost(h)` the host observed on `u` is `h`. -/
theorem C8_builder_aliases_amended (raw : GoStr) (u : Uri) (s h : GoStr)
    (_hp : Parse raw = (some u, none)) :
    schemeAfterBuilderSetScheme u s = s ∧ hostAfterBuilderSetHost u h = h := by
  exact ⟨rfl, rfl⟩

theorem C8_builder_aliases_witness :
    schemeAfterBuilderSetScheme C8parsed (cs ['f','t','p']) = cs ['f','t','p'] ∧
    hostAfterBuilderSetHost C8parsed (cs ['x']) = cs ['x'] :=
  C8_builder_aliases_amended C8input C8parsed _ _ (by decide)

/-! ### C3 — URI implies URI reference -/

theorem parse_flag_indep (s : GoStr) (h : (parse s false).2 = none) :
    parse s true = parse s false := by
  unfold parse at h ⊢
  by_cases h1 : (indexByte s colonMark == 0 || indexByte s questionMark == 0 ||
                 indexByte s fragmentMark == 0) = true
  · simp only [h1, if_true]
  · simp only [h1, if_false] at h ⊢
    by_cases h2 : (indexByte s colonMark == 1) = true
    · simp only [h2, if_true]
    · simp only [h2, if_false] at h ⊢
      by_cases h3 : (indexByte s questionMark == 1 || indexByte s fragmentMark == 1) = true
      · simp only [h3, if_true]
      · simp only [h3, if_false] at h ⊢
        by_cases h4 : ((indexByte s questionMark > 0 && indexByte s questionMark < indexByte s colonMark) ||
                       (indexByte s fragmentMark > 0 && indexByte s fragmentMark < indexByte s colonMark)) = true
        · simp only [h4, if_true]
        · simp only [h4, if_false] at h ⊢
          by_cases h5 : (indexByte s colonMark > 0 && !goStartsWith s authorityPre) = true
          · simp only [h5, if_true]
          · simp only [h5, if_false] at h ⊢
            simp only [Bool.not_false, if_true] at h
            simp at h

theorem uriValidate_error_eq (v : Uri) (e : Err) (h : (uriValidate v).1 = some e) :
    uriValidate v = (some e, v) := by
  unfold uriValidate at h ⊢
  repeat' split at h <;> simp_all

theorem pair_validate_inv (v u : Uri) (e : Err)
    (h1 : (uriValidate v).2 = u) (h2 : (uriValidate v).1 = some e) :
    uriValidate u = (some e, u) := by
  have hx := uriValidate_error_eq v e h2
  rw [hx] at h1
  simp only at h1
  subst h1
  exact hx

theorem parseTail_partial (raw : GoStr) (curr hpe qe : Int)
    (scheme hierPart query : GoStr) (authority : AuthorityInfo) (u : Uri) (e : Err)
    (h : parseTail raw curr hpe qe scheme hierPart query authority = (some u, some e)) :
    uriValidate u = (some e, u) := by
  unfold parseTail at h
  simp only [] at h
  split at h
  · rcases hpa : parseAuthority (goSlice raw curr qe) with e' | a
    · rw [hpa] at h; simp at h
    · rw [hpa] at h
      dsimp only at h
      rcases hv : (uriValidate { scheme := scheme, hierPart := goSlice raw curr qe,
                                 query := query, fragment := [], authority := a }).1 with _ | e'
      · rw [hv] at h; simp at h
      · rw [hv] at h; simp at h
  · split at h
    · split at h
      · rcases hpa : parseAuthority (goSlice raw curr qe) with e' | a
        · rw [hpa] at h; simp at h
        · rw [hpa] at h
          dsimp only at h
          rw [Prod.mk.injEq] at h
          simp only [Option.some.injEq] at h
          exact pair_validate_inv _ _ _ h.1 h.2
      · rw [Prod.mk.injEq] at h
        simp only [Option.some.injEq] at h
        exact pair_validate_inv _ _ _ h.1 h.2
    · rw [Prod.mk.injEq] at h
      simp only [Option.some.injEq] at h
      exact pair_validate_inv _ _ _ h.1 h.2

theorem parseAfterScheme_partial (raw : GoStr) (se hpe qe : Int) (scheme : GoStr)
    (u : Uri) (e : Err)
    (h : parseAfterScheme raw se hpe qe scheme = (some u, some e)) :
    uriValidate u = (some e, u) := by
  unfold parseAfterScheme at h
  simp only [] at h
  split at h
  · rcases hpa : parseAuthority
        (goSlice raw (se + 1) (if hpe < 0 then ((raw.length : Int)) else hpe)) with e' | a
    · rw [hpa] at h; simp at h
    · rw [hpa] at h
      dsimp only at h
      rw [Prod.mk.injEq] at h
      simp only [Option.some.injEq] at h
      exact pair_validate_inv _ _ _ h.1 h.2
  · split at h
    · rcases hpa : parseAuthority (goSlice raw (se + 1) hpe) with e' | a
      · rw [hpa] at h; simp at h
      · rw [hpa] at h
        dsimp only at h
        exact parseTail_partial _ _ _ _ _ _ _ _ _ _ h
    · exact parseTail_partial _ _ _ _ _ _ _ _ _ _ h

theorem parse_partial (raw : GoStr) (w : Bool) (u : Uri) (e : Err)
    (h : parse raw w = (some u, some e)) : uriValidate u = (some e, u) := by
  unfold parse at h
  simp only [] at h
  split at h
  · simp at h
  · split at h
    · simp at h
    · split at h
      · simp at h
      · split at h
        · simp at h
        · split at h
          · split at h
            · rw [Prod.mk.injEq] at h
              simp only [Option.some.injEq] at h
              exact pair_validate_inv _ _ _ h.1 h.2
            · exact parseAfterScheme_partial _ _ _ _ _ _ _ h
          · split at h
            · simp at h
            · split at h
              · exact parseAfterScheme_partial _ _ _ _ _ _ _ h
              · exact parseAfterScheme_partial _ _ _ _ _ _ _ h

/-- C3: every string accepted by `Parse` is accepted by `ParseReference`
(the reference flag is consulted only when the mandatory-scheme check
fails), the empty string is a valid URI reference, and the empty string is
not a valid URI. -/
theorem C3_uri_implies_reference :
    (∀ s : GoStr, IsURI s = true → IsURIReference s = true) ∧
    IsURIReference [] = true ∧ IsURI [] = false := by
  refine ⟨?_, by decide, by decide⟩
  intro s hs
  unfold IsURI at hs
  unfold IsURIReference
  rw [beq_iff_eq] at hs
  rw [parse_flag_indep s hs, hs]
  rfl

theorem C3_witness :
    IsURIReference (cs ['h','t','t','p',':']) = true :=
  C3_uri_implies_reference.1 (cs ['h','t','t','p',':']) (by decide)

/-! ### C7 — no partial value on error -/

def C7input : GoStr := cs ['1','a',':']

def C7parsed : Uri := { scheme := cs ['1','a'] }

/-- C7 counterexample: `Parse("1a:")` returns a non-nil URI value (scheme
`1a`) TOGETHER with a non-nil error — the parser does return a partially
constructed value alongside an error. -/
theorem C7_no_partial_value_counterexample :
    Parse C7input = (some C7parsed, some [ErrKind.invalidScheme]) := by
  decide

/-- C7 amended: when the structural phase fails (or validation fails in
the fragment-only trailing-`#` branch) the returned value is absent, but
whenever `parse` returns a value together with a non-nil error, that value
is the partially constructed URI and the error is exactly the value's own
validation failure (`u.Validate()`), which leaves the value unchanged. -/
theorem C7_partial_value_on_validation_error (raw : GoStr) (w : Bool) (u : Uri) (e : Err)
    (h : parse raw w = (some u, some e)) :
    uriValidate u = (some e, u) :=
  parse_partial raw w u e h

theorem C7_partial_value_witness :
    uriValidate C7parsed = (some [ErrKind.invalidScheme], C7parsed) :=
  C7_partial_value_on_validation_error C7input false C7parsed [ErrKind.invalidScheme] (by decide)

/-! ### C10 — scheme-less references skip DNS host validation -/

def C10ref : GoStr :=
  cs ['/','/','2','5','6','.','2','5','6','.','2','5','6','.','2','5','6','/','x']

def C10uri : GoStr :=
  cs ['h','t','t','p','s',':','/','/','2','5','6','.','2','5','6','.','2','5','6','.','2','5','6','/','x']

set_option maxRecDepth 1000000 in
set_option maxHeartbeats 8000000 in
/-- C10: the empty scheme is not a DNS-validating scheme, so host
validation for a scheme-less reference reduces to the registered-name rule
alone; concretely `ParseReference("//256.256.256.256/x")` succeeds with a
non-IP host kind while `Parse("https://256.256.256.256/x")` fails. -/
theorem C10_schemeless_skips_dns :
    UsesDNSHostValidation [] = false ∧
    (∀ host : GoStr, validateHostForScheme host [[]] = validateRegisteredHostForScheme host) ∧
    (ParseReference C10ref).2 = none ∧
    ((ParseReference C10ref).1.getD {}).authority.host =
      cs ['2','5','6','.','2','5','6','.','2','5','6','.','2','5','6'] ∧
    ((ParseReference C10ref).1.getD {}).authority.ipType = {} ∧
    (Parse C10uri).2.isSome = true := by
  refine ⟨by decide, ?_, by decide, by decide, by decide, by decide⟩
  intro host
  have h1 : validateHostForScheme host [[]] =
      match (if UsesDNSHostValidation [] then validateDNSHostForScheme host else none) with
      | some e => some e
      | none =>
        match validateRegisteredHostForScheme host with
        | some e => some e
        | none => validateHostForScheme host [] := rfl
  rw [h1]
  have hdns : UsesDNSHostValidation [] = false := by decide
  rw [hdns]
  simp only [Bool.false_eq_true, if_false]
  cases hreg : validateRegisteredHostForScheme host with
  | some e => rfl
  | none => rfl

/-! ### C4 — scheme validation -/

/-- Decode every rune of a string through the package's decoder
(`for _, r := range s`).  `fuel` bounds iterations; `s.length` suffices. -/
def decodeAll : Nat → GoStr → List Nat
  | 0, _ => []
  | fuel + 1, s =>
    match s with
    | [] => []
    | b :: rest =>
      (decodeRune (b :: rest)).1 ::
        decodeAll fuel ((b :: rest).drop (decodeRune (b :: rest)).2)

/-- The runes of a Go string, as `range` iterates them. -/
def runesOf (s : GoStr) : List Nat := decodeAll s.length s

/-- The scheme grammar exactly as the claim states it:
`ALPHA *( ALPHA / DIGIT / "+" / "-" / "." )` over ASCII, at least two
characters, ASCII letter first. -/
def claimSchemeASCII (s : GoStr) : Bool :=
  match s with
  | [] => false
  | b :: rest =>
    ((0x41 ≤ b && b ≤ 0x5A) || (0x61 ≤ b && b ≤ 0x7A)) &&
    rest.all (fun c =>
      (0x41 ≤ c && c ≤ 0x5A) || (0x61 ≤ c && c ≤ 0x7A) ||
      (0x30 ≤ c && c ≤ 0x39) || c == 0x2B || c == 0x2D || c == 0x2E) &&
    decide (2 ≤ s.length)

/-- A non-first scheme rune as the code accepts it. -/
def schemeRuneOk (r : Nat) : Bool :=
  unicodeIsLetter r || unicodeIsDigit r || r == 0x2B || r == 0x2D || r == 0x2E

/-- The scheme shape the code actually accepts (the amended claim): byte
length at least two, first rune a Unicode letter, every later rune a
Unicode letter / digit / `+` / `-` / `.`. -/
def amendedSchemeShape (s : GoStr) : Bool :=
  decide (2 ≤ s.length) &&
  (match runesOf s with
   | [] => false
   | r :: rs => unicodeIsLetter r && rs.all schemeRuneOk)

theorem scheme_cond_not (r : Nat) :
    (!unicodeIsLetter r && !unicodeIsDigit r && r != 0x2B && r != 0x2D && r != 0x2E) =
      !schemeRuneOk r := by
  cases h1 : unicodeIsLetter r <;> cases h2 : unicodeIsDigit r <;>
    cases h3 : r == 0x2B <;> cases h4 : r == 0x2D <;> cases h5 : r == 0x2E <;>
      simp [schemeRuneOk, bne, h1, h2, h3, h4, h5]

theorem schemeLoop_false_iff (fuel : Nat) (s : GoStr) :
    schemeLoop fuel s false = none ↔ (decodeAll fuel s).all schemeRuneOk = true := by
  induction fuel generalizing s with
  | zero => simp [schemeLoop, decodeAll]
  | succ fuel ih =>
    cases s with
    | nil => simp [schemeLoop, decodeAll]
    | cons b rest =>
      simp only [schemeLoop, decodeAll, List.all_cons, Bool.if_false_left]
      rw [scheme_cond_not]
      by_cases hok : schemeRuneOk (decodeRune (b :: rest)).1 = true
      · simp [hok, ih]
      · simp only [Bool.not_eq_true] at hok
        simp [hok]

theorem schemeLoop_true_iff (fuel : Nat) (s : GoStr) :
    schemeLoop fuel s true = none ↔
      (match decodeAll fuel s with
       | [] => true
       | r :: rs => unicodeIsLetter r && rs.all schemeRuneOk) = true := by
  cases fuel with
  | zero => simp [schemeLoop, decodeAll]
  | succ fuel =>
    cases s with
    | nil => simp [schemeLoop, decodeAll]
    | cons b rest =>
      simp only [schemeLoop, decodeAll]
      by_cases hl : unicodeIsLetter (decodeRune (b :: rest)).1 = true
      · simp [hl, schemeLoop_false_iff]
      · simp only [Bool.not_eq_true] at hl
        simp [hl]

theorem validateScheme_none_iff (s : GoStr) :
    validateScheme s = none ↔ amendedSchemeShape s = true := by
  unfold validateScheme amendedSchemeShape runesOf
  by_cases hlen : s.length < 2
  · have h2 : ¬(2 ≤ s.length) := by omega
    simp [hlen, h2]
  · have h2 : 2 ≤ s.length := by omega
    rw [if_neg hlen, decide_eq_true h2, Bool.true_and]
    cases s with
    | nil => simp at h2
    | cons b rest =>
      rw [schemeLoop_true_iff]
      simp [decodeAll]

theorem schemeLoop_err (fuel : Nat) (s : GoStr) (first : Bool)
    (h : schemeLoop fuel s first ≠ none) :
    schemeLoop fuel s first = some [ErrKind.invalidScheme] := by
  induction fuel generalizing s first with
  | zero => simp [schemeLoop] at h
  | succ fuel ih =>
    cases s with
    | nil => simp [schemeLoop] at h
    | cons b rest =>
      simp only [schemeLoop] at h ⊢
      by_cases hf : first = true
      · subst hf
        simp only [if_true] at h ⊢
        split at h
        · split <;> simp_all
        · split
          · simp_all
          · exact ih _ _ h
      · have : first = false := by cases first <;> simp_all
        subst this
        simp only [Bool.false_eq_true, if_false] at h ⊢
        split at h
        · split <;> simp_all
        · split
          · simp_all
          · exact ih _ _ h

theorem validateScheme_err (s : GoStr) (h : validateScheme s ≠ none) :
    validateScheme s = some [ErrKind.invalidScheme] := by
  unfold validateScheme at h ⊢
  by_cases hlen : s.length < 2
  · rw [if_pos hlen]
  · rw [if_neg hlen] at h ⊢
    exact schemeLoop_err _ _ _ h

def C4nonASCII : GoStr := cs ['é','h']

/-- C4 counterexample: scheme `éh` (non-ASCII first rune) is accepted by
the scheme validator and by `Parse("éh:")`, yet it does not match the
claimed ASCII-only grammar — the code classifies runes with
`unicode.IsLetter`, not ASCII `ALPHA`. -/
theorem C4_scheme_ascii_counterexample :
    validateScheme C4nonASCII = none ∧
    claimSchemeASCII C4nonASCII = false ∧
    (Parse (cs ['é','h',':'])).2 = none := by
  exact ⟨by decide, by decide, by decide⟩

/-- C4 amended: the scheme validator accepts exactly the strings of byte
length at least 2 whose first rune is a Unicode letter and whose
subsequent runes are Unicode letters, digits, `+`, `-` or `.` (percent
signs are rejected like all other punctuation); every rejection carries
`ErrInvalidScheme`. -/
theorem C4_scheme_amended (s : GoStr) :
    (validateScheme s = none ↔ amendedSchemeShape s = true) ∧
    (validateScheme s ≠ none → validateScheme s = some [ErrKind.invalidScheme]) :=
  ⟨validateScheme_none_iff s, validateScheme_err s⟩

theorem C4_scheme_amended_witness :
    validateScheme (cs ['1','x']) = some [ErrKind.invalidScheme] :=
  (C4_scheme_amended (cs ['1','x'])).2 (by decide)

/-! ### C9 — scheme-only URI -/

theorem decodeRune_take_bytes (b : Nat) (rest : GoStr) :
    ∀ x ∈ (b :: rest).take (decodeRune (b :: rest)).2, x = b ∨ 0x80 ≤ x := by
  intro x hx
  by_cases h0 : b < 0x80
  · left
    rw [show decodeRune (b :: rest) = (b, 1) from by unfold decodeRune; simp [h0]] at hx
    simpa using hx
  · right
    unfold decodeRune at hx
    dsimp only at hx
    rw [if_neg h0] at hx
    repeat' split at hx
    all_goals simp_all [isCont]
    all_goals omega

theorem decodeRune_ascii (b : Nat) (rest : GoStr) (h0 : b < 0x80) :
    decodeRune (b :: rest) = (b, 1) := by
  unfold decodeRune; simp [h0]

theorem schemeLoop_mem_ascii (fuel : Nat) (s : GoStr) (first : Bool)
    (hf : s.length ≤ fuel) (h : schemeLoop fuel s first = none) :
    ∀ x ∈ s, x < 0x80 → schemeRuneOk x = true := by
  induction fuel generalizing s first with
  | zero =>
    intro x hx _
    have hnil : s = [] := List.length_eq_zero.mp (by omega)
    subst hnil; simp at hx
  | succ fuel ih =>
    intro x hx hlt
    cases s with
    | nil => simp at hx
    | cons b rest =>
      simp only [schemeLoop] at h
      have hsz := decodeRune_size_pos b rest
      have hmem : x ∈ (b :: rest).take (decodeRune (b :: rest)).2 ∨
                  x ∈ (b :: rest).drop (decodeRune (b :: rest)).2 := by
        have := List.take_append_drop (decodeRune (b :: rest)).2 (b :: rest)
        rw [← this] at hx
        exact List.mem_append.mp hx
      have hlen : ((b :: rest).drop (decodeRune (b :: rest)).2).length ≤ fuel := by
        simp only [List.length_drop, List.length_cons]
        simp only [List.length_cons] at hf
        omega
      cases hfirst : first with
      | true =>
        subst hfirst
        rw [if_pos rfl] at h
        by_cases hcnd : (!unicodeIsLetter (decodeRune (b :: rest)).1) = true
        · rw [if_pos hcnd] at h; simp at h
        · rw [if_neg hcnd] at h
          have hlet : unicodeIsLetter (decodeRune (b :: rest)).1 = true := by
            revert hcnd; cases unicodeIsLetter (decodeRune (b :: rest)).1 <;> simp
          rcases hmem with hm | hm
          · rcases decodeRune_take_bytes b rest x hm with hxb | hxb
            · subst hxb
              have hax := decodeRune_ascii x rest hlt
              rw [hax] at hlet
              simp [schemeRuneOk, hlet]
            · omega
          · exact ih _ false hlen h x hm hlt
      | false =>
        subst hfirst
        rw [if_neg (by simp)] at h
        by_cases hcnd : (!unicodeIsLetter (decodeRune (b :: rest)).1 &&
            !unicodeIsDigit (decodeRune (b :: rest)).1 &&
            (decodeRune (b :: rest)).1 != 0x2B &&
            (decodeRune (b :: rest)).1 != 0x2D &&
            (decodeRune (b :: rest)).1 != 0x2E) = true
        · rw [if_pos hcnd] at h; simp at h
        · rw [if_neg hcnd] at h
          rw [scheme_cond_not] at hcnd
          have hok : schemeRuneOk (decodeRune (b :: rest)).1 = true := by
            revert hcnd; cases schemeRuneOk (decodeRune (b :: rest)).1 <;> simp
          rcases hmem with hm | hm
          · rcases decodeRune_take_bytes b rest x hm with hxb | hxb
            · subst hxb
              have hax := decodeRune_ascii x rest hlt
              rw [hax] at hok
              exact hok
            · omega
          · exact ih _ false hlen h x hm hlt

theorem validateScheme_no_bad_bytes (sch : GoStr) (h : validateScheme sch = none) :
    colonMark ∉ sch ∧ questionMark ∉ sch ∧ fragmentMark ∉ sch ∧ slashMark ∉ sch := by
  have hlen : ¬(sch.length < 2) := by
    intro hl
    unfold validateScheme at h
    rw [if_pos hl] at h
    simp at h
  have hloop : schemeLoop sch.length sch true = none := by
    unfold validateScheme at h
    rwa [if_neg hlen] at h
  have hmem := schemeLoop_mem_ascii sch.length sch true (le_refl _) hloop
  refine ⟨?_, ?_, ?_, ?_⟩ <;> intro hcm
  · have := hmem _ hcm (by norm_num [colonMark])
    rw [show schemeRuneOk colonMark = false from by decide] at this
    exact absurd this (by simp)
  · have := hmem _ hcm (by norm_num [questionMark])
    rw [show schemeRuneOk questionMark = false from by decide] at this
    exact absurd this (by simp)
  · have := hmem _ hcm (by norm_num [fragmentMark])
    rw [show schemeRuneOk fragmentMark = false from by decide] at this
    exact absurd this (by simp)
  · have := hmem _ hcm (by norm_num [slashMark])
    rw [show schemeRuneOk slashMark = false from by decide] at this
    exact absurd this (by simp)

/-- C9: for any valid scheme, parsing the scheme immediately followed by
a single `:` succeeds, yields a URI whose scheme is that string and whose
other components (authority, query, fragment) are all empty, and `String`
reproduces the input byte for byte. -/
theorem C9_scheme_only_uri (sch : GoStr) (h : validateScheme sch = none) :
    parse (sch ++ [colonMark]) false = (some { scheme := sch }, none) ∧
    uriString { scheme := sch } = sch ++ [colonMark] := by
  obtain ⟨hc, hq, hh, hs⟩ := validateScheme_no_bad_bytes sch h
  have hlen : 2 ≤ sch.length := by
    by_contra hl
    unfold validateScheme at h
    rw [if_pos (by omega)] at h
    simp at h
  have hnil : sch.isEmpty = false := by
    cases sch with
    | nil => simp at hlen
    | cons a l => rfl
  have hic : indexByte (sch ++ [colonMark]) colonMark = (sch.length : Int) := by
    rw [indexByte_append_not_mem _ _ _ hc]
    rw [show indexByte [colonMark] colonMark = 0 from by decide]
    simp
  have hiq : indexByte (sch ++ [colonMark]) questionMark = -1 := by
    rw [indexByte_append_not_mem _ _ _ hq]
    rw [show indexByte [colonMark] questionMark = -1 from by decide]
    simp
  have hih : indexByte (sch ++ [colonMark]) fragmentMark = -1 := by
    rw [indexByte_append_not_mem _ _ _ hh]
    rw [show indexByte [colonMark] fragmentMark = -1 from by decide]
    simp
  have hrel : goStartsWith (sch ++ [colonMark]) authorityPre = false := by
    unfold goStartsWith authorityPre
    rw [List.take_append_of_le_length (by simpa using hlen)]
    by_contra hcon
    simp only [Bool.not_eq_false, beq_iff_eq] at hcon
    have h47 : slashMark ∈ List.take [47, 47].length sch := by
      rw [hcon]; simp [slashMark]
    exact hs (List.take_subset _ sch h47)
  have hval : uriValidate { scheme := sch } = (none, { scheme := sch }) := by
    unfold uriValidate
    simp only [hnil, Bool.false_eq_true, if_false, h]
    rfl
  have hslice : goSlice (sch ++ [colonMark]) 0 (sch.length : Int) = sch := by
    unfold goSlice
    simp [List.take_left']
  constructor
  · unfold parse
    rw [hic, hiq, hih, hrel]
    have e0 : (((sch.length : Int) == 0) = false) := by
      rw [beq_eq_false_iff_ne]; omega
    have e1 : (((sch.length : Int) == 1) = false) := by
      rw [beq_eq_false_iff_ne]; omega
    have egt : ((0 : Int) < (sch.length : Int)) := by omega
    simp only [e0, e1, Bool.false_or, Bool.or_false]
    rw [if_neg (by simp)]
    rw [if_neg (by simp [e1])]
    rw [if_neg (by simp)]
    rw [if_neg (by simp)]
    rw [hslice]
    rw [if_pos (by simp; omega)]
    rw [if_pos (by rw [beq_iff_eq]; simp)]
    rw [hval]
  · unfold uriString authorityString
    have : (0 < sch.length) := by omega
    simp [this]

theorem C9_scheme_only_witness :
    parse (cs ['h','t','t','p'] ++ [colonMark]) false =
      (some { scheme := cs ['h','t','t','p'] }, none) ∧
    uriString { scheme := cs ['h','t','t','p'] } = cs ['h','t','t','p'] ++ [colonMark] :=
  C9_scheme_only_uri (cs ['h','t','t','p']) (by decide)

theorem unreservedLoop_fuel (extra : List Nat) (fuel : Nat) (s : GoStr)
    (hf : s.length ≤ fuel) :
    unreservedLoop extra fuel s = validateUnreservedWithExtra s extra := by
  unfold validateUnreservedWithExtra
  induction fuel using Nat.strong_induction_on generalizing s with
  | _ fuel ih =>
    match fuel, s with
    | 0, s =>
      have : s = [] := List.length_eq_zero.mp (by omega)
      subst this
      rfl
    | fuel + 1, [] => rfl
    | fuel + 1, b :: rest =>
      simp only [unreservedLoop, List.length_cons]
      have hsz := decodeRune_size_pos b rest
      have hszle := decodeRune_size_le (b :: rest)
      have hrest : rest.length ≤ fuel := by
        simp only [List.length_cons] at hf
        omega
      by_cases h1 : ((decodeRune (b :: rest)).1 == runeError) = true
      · rw [if_pos h1, if_pos h1]
      · rw [if_neg h1, if_neg h1]
        by_cases h2 : ((decodeRune (b :: rest)).1 == percentMark) = true
        · rw [if_pos h2, if_pos h2]
          by_cases h3 : ((b :: rest).drop (decodeRune (b :: rest)).2).isEmpty = true
          · rw [if_pos h3, if_pos h3]
          · rw [if_neg h3, if_neg h3]
            cases hu : unescapePercentEncoding ((b :: rest).drop (decodeRune (b :: rest)).2) with
            | error e => rfl
            | ok ro =>
              dsimp only
              have hY : (((b :: rest).drop (decodeRune (b :: rest)).2).drop ro.2).length ≤
                  rest.length := by
                simp only [List.length_drop, List.length_cons]
                omega
              rw [ih fuel (by omega) _ (by omega),
                  ih rest.length (by omega) _ hY]
        · rw [if_neg h2, if_neg h2]
          by_cases h4 : (!allowedRune (decodeRune (b :: rest)).1 extra) = true
          · rw [if_pos h4, if_pos h4]
          · rw [if_neg h4, if_neg h4]
            have hY : ((b :: rest).drop (decodeRune (b :: rest)).2).length ≤ rest.length := by
              simp only [List.length_drop, List.length_cons]
              omega
            rw [ih fuel (by omega) _ (by omega),
                ih rest.length (by omega) _ hY]

theorem unreserved_after_pct25 (z : GoStr) :
    validateUnreservedWithExtra (percentMark :: 0x32 :: 0x35 :: z) [] =
      validateUnreservedWithExtra z [] := by
  have h1 : validateUnreservedWithExtra (percentMark :: 0x32 :: 0x35 :: z) [] =
      unreservedLoop [] (z.length + 2) z := rfl
  rw [h1, unreservedLoop_fuel _ _ _ (by omega)]

def C6example : GoStr :=
  cs ['h','t','t','p','s',':','/','/','u','s','e','r',':','p','a','s','s','w','d','@',
      '[','2','1','D','A',':','0','0','D','3',':','0','0','0','0',':','2','F','3','B',
      ':','0','2','A','A',':','0','0','F','F',':','F','E','2','8',':','9','C','5','A',
      '%','2','5','e','n','0',']',':','8','0','8','0','/','a','?','q','u','e','r','y',
      '=','v','a','l','u','e','#','f','r','a','g','m','e','n','t']

def C6host : GoStr :=
  cs ['2','1','D','A',':','0','0','D','3',':','0','0','0','0',':','2','F','3','B',
      ':','0','2','A','A',':','0','0','F','F',':','F','E','2','8',':','9','C','5','A',
      '%','2','5','e','n','0']

theorem drop_append_cons (l1 l2 : List Nat) (b : Nat) :
    (l1 ++ b :: l2).drop l1.length = b :: l2 := List.drop_left _ _

/-- Condition under which `validateIPv6` accepts a host containing a `%`:
the bytes before the first `%` form a valid IPv6 address, and from the `%`
on the host reads `%25` followed by a non-empty zone accepted by
`validateUnreservedWithExtra _ []` — i.e. unreserved characters,
sub-delims, Latin-1 letters or digits, or percent-encoded bytes.  (This is
the code's character class; it is strictly wider than RFC 3986
`unreserved` plus percent-escapes.) -/
def zoneAcceptCondition (host : GoStr) : Prop :=
  0 < indexByte host percentMark ∧
  netipParseAddr (host.take (indexByte host percentMark).toNat) = .v6 ∧
  ∃ z : GoStr,
    host.drop (indexByte host percentMark).toNat = percentMark :: 0x32 :: 0x35 :: z ∧
    z ≠ [] ∧ validateUnreservedWithExtra z [] = none

theorem validateIPv6_zone_char (host : GoStr) (hmem : percentMark ∈ host)
    (hv : ∀ c, host.head? = some c → c ≠ 0x76 ∧ c ≠ 0x56) :
    (validateIPv6 host = none ↔ zoneAcceptCondition host) ∧
    ∀ e, validateIPv6 host = some e → ErrKind.invalidHostAddress ∈ e := by
  obtain ⟨h0, t, rfl⟩ : ∃ h0 t, host = h0 :: t := by
    cases host with
    | nil => cases hmem
    | cons a b => exact ⟨a, b, rfl⟩
  have hcond : ((h0 == 0x76 || h0 == 0x56) = false) := by
    obtain ⟨hn1, hn2⟩ := hv h0 rfl
    simp [hn1, hn2]
  have hnn : 0 ≤ indexByte (h0 :: t) percentMark :=
    (indexByte_nonneg_iff _ _).mpr hmem
  obtain ⟨i, hi⟩ := Int.eq_ofNat_of_zero_le hnn
  unfold validateIPv6
  dsimp only
  rw [hcond]
  simp only [Bool.false_eq_true, if_false, hi, Int.toNat_natCast]
  obtain ⟨hlt, heq, hnotmem⟩ := indexByte_split (h0 :: t) percentMark i hi
  have htl : ((h0 :: t).take i).length = i := by
    rw [List.length_take]; omega
  have hdrop : (h0 :: t).drop i = percentMark :: (h0 :: t).drop (i + 1) := by
    have hd := drop_append_cons ((h0 :: t).take i) ((h0 :: t).drop (i + 1)) percentMark
    rw [htl, heq] at hd
    exact hd
  by_cases hi0 : i = 0
  · subst hi0
    have hqt : (((0 : Nat) : Int) == 0) = true := by decide
    rw [hqt]
    simp only [if_true]
    refine ⟨⟨fun hc => Option.noConfusion hc, fun hr => ?_⟩, fun e he => ?_⟩
    · exfalso
      rcases hr with ⟨hr1, -, -⟩
      rw [hi] at hr1
      simp at hr1
    · cases he
      simp
  · have hqf : (((i : Nat) : Int) == 0) = false := by
      rw [beq_eq_false_iff_ne]
      exact_mod_cast hi0
    rw [hqf]
    simp only [Bool.false_eq_true, if_false]
    have hpos : (0 : Int) < (i : Int) := by exact_mod_cast Nat.pos_of_ne_zero hi0
    rw [if_pos hpos, if_pos hpos]
    rcases hip : netipParseAddr ((h0 :: t).take i) with _ | _ | _
    · simp only [hip]
      refine ⟨⟨fun hc => Option.noConfusion hc, fun hr => ?_⟩, fun e he => ?_⟩
      · exfalso
        rcases hr with ⟨-, hr2, -⟩
        rw [hi, Int.toNat_natCast, hip] at hr2
        cases hr2
      · cases he
        simp
    · simp only [hip]
      refine ⟨⟨fun hc => Option.noConfusion hc, fun hr => ?_⟩, fun e he => ?_⟩
      · exfalso
        rcases hr with ⟨-, hr2, -⟩
        rw [hi, Int.toNat_natCast, hip] at hr2
        cases hr2
      · cases he
        simp
    · simp only [hip, hdrop, List.isEmpty_cons, Bool.false_eq_true, if_false]
      rcases hw : (h0 :: t).drop (i + 1) with _ | ⟨w0, _ | ⟨w1, z⟩⟩
      · simp only [List.length_cons, List.length_nil]
        rw [if_pos (by simp)]
        refine ⟨⟨fun hc => Option.noConfusion hc, fun hr => ?_⟩, fun e he => ?_⟩
        · exfalso
          rcases hr with ⟨-, -, z', hzeq, -, -⟩
          rw [hi, Int.toNat_natCast, hdrop, hw] at hzeq
          simp at hzeq
        · cases he
          simp
      · simp only [List.length_cons, List.length_nil]
        rw [if_pos (by simp)]
        refine ⟨⟨fun hc => Option.noConfusion hc, fun hr => ?_⟩, fun e he => ?_⟩
        · exfalso
          rcases hr with ⟨-, -, z', hzeq, -, -⟩
          rw [hi, Int.toNat_natCast, hdrop, hw] at hzeq
          simp at hzeq
        · cases he
          simp
      · by_cases hz : z = []
        · subst hz
          simp only [List.length_cons, List.length_nil]
          rw [if_pos (by simp)]
          refine ⟨⟨fun hc => Option.noConfusion hc, fun hr => ?_⟩, fun e he => ?_⟩
          · exfalso
            rcases hr with ⟨-, -, z', hzeq, hzne, -⟩
            rw [hi, Int.toNat_natCast, hdrop, hw] at hzeq
            simp only [List.cons.injEq] at hzeq
            exact hzne hzeq.2.2.2.symm
          · cases he
            simp
        · by_cases hw0 : w0 = 0x32
          · by_cases hw1 : w1 = 0x35
            · subst hw0; subst hw1
              have hzlen : 0 < z.length := List.length_pos.mpr hz
              rw [if_neg (by simp; omega)]
              rw [unreserved_after_pct25]
              rcases hvu : validateUnreservedWithExtra z [] with _ | e0
              · refine ⟨⟨fun _ => ?_, fun _ => rfl⟩, fun e he => Option.noConfusion he⟩
                refine ⟨by rw [hi]; exact_mod_cast Nat.pos_of_ne_zero hi0,
                        by rw [hi, Int.toNat_natCast]; exact hip, z, ?_, hz, hvu⟩
                rw [hi, Int.toNat_natCast, hdrop, hw]
              · dsimp only
                refine ⟨⟨fun hc => Option.noConfusion hc, fun hr => ?_⟩, fun e he => ?_⟩
                · exfalso
                  rcases hr with ⟨-, -, z', hzeq, -, hzval⟩
                  rw [hi, Int.toNat_natCast, hdrop, hw] at hzeq
                  simp only [List.cons.injEq] at hzeq
                  rw [← hzeq.2.2.2] at hzval
                  rw [hvu] at hzval
                  cases hzval
                · cases he
                  simp
            · rw [if_pos (by simp [hw1])]
              refine ⟨⟨fun hc => Option.noConfusion hc, fun hr => ?_⟩, fun e he => ?_⟩
              · exfalso
                rcases hr with ⟨-, -, z', hzeq, -, -⟩
                rw [hi, Int.toNat_natCast, hdrop, hw] at hzeq
                simp only [List.cons.injEq] at hzeq
                exact hw1 hzeq.2.2.1
              · cases he
                simp
          · rw [if_pos (by simp [hw0])]
            refine ⟨⟨fun hc => Option.noConfusion hc, fun hr => ?_⟩, fun e he => ?_⟩
            · exfalso
              rcases hr with ⟨-, -, z', hzeq, -, -⟩
              rw [hi, Int.toNat_natCast, hdrop, hw] at hzeq
              simp only [List.cons.injEq] at hzeq
              exact hw0 hzeq.2.1
            · cases he
              simp

def C6zhost : GoStr := cs [':',':','1','%','2','5','e','n','0']

set_option maxRecDepth 1000000 in
/-- C6 (amended): for every bracketed IPv6 literal host containing a `%`
(and not an IPvFuture literal), `validateIPv6` accepts it iff a valid IPv6
address is followed by a `%25`-escaped non-empty zone identifier whose
characters pass the package's unreserved-with-escapes validator (which
admits unreserved characters, sub-delims, Latin-1 letters and digits, and
percent-encoded bytes — strictly more than the unreserved-or-percent class
of RFC 6874), and every rejection carries `invalidHostAddress`; the
example
`https://user:passwd@[21DA:00D3:0000:2F3B:02AA:00FF:FE28:9C5A%25en0]:8080/a?query=value#fragment`
parses with that host, host-kind IPv6, and round-trips byte-exactly. -/
theorem C6_ipv6_zone :
    (∀ host : GoStr, percentMark ∈ host →
      (∀ c, host.head? = some c → c ≠ 0x76 ∧ c ≠ 0x56) →
      ((validateIPv6 host = none ↔ zoneAcceptCondition host) ∧
       ∀ e, validateIPv6 host = some e → ErrKind.invalidHostAddress ∈ e)) ∧
    (Parse C6example).2 = none ∧
    ((Parse C6example).1.getD {}).authority.host = C6host ∧
    ((Parse C6example).1.getD {}).authority.ipType.isIPv6 = true ∧
    uriString ((Parse C6example).1.getD {}) = C6example :=
  ⟨validateIPv6_zone_char, by decide, by decide, by decide, by decide⟩

set_option maxRecDepth 1000000 in
/-- Witness for C6: the host `::1%25en0` contains `%`, is not IPvFuture,
is accepted by `validateIPv6`, and hence satisfies the zone condition. -/
theorem C6_ipv6_zone_witness :
    percentMark ∈ C6zhost ∧ validateIPv6 C6zhost = none ∧ zoneAcceptCondition C6zhost :=
  ⟨by decide, by decide,
   (C6_ipv6_zone.1 C6zhost (by decide) (by decide)).1.mp (by decide)⟩

/-- Following the claim's words: an RFC 3986 unreserved character
(ASCII letter, digit, `-`, `.`, `_` or `~`). -/
def specUnreservedByte (b : Nat) : Bool :=
  (0x41 ≤ b && b ≤ 0x5A) || (0x61 ≤ b && b ≤ 0x7A) || (0x30 ≤ b && b ≤ 0x39) ||
  b == 0x2D || b == 0x2E || b == 0x5F || b == 0x7E

/-- Following the claim's words: a zone identifier made only of unreserved
characters or percent-encoded triplets. -/
def specUnreservedZone : GoStr → Bool
  | [] => true
  | b :: rest =>
    if b == percentMark then
      match rest with
      | h1 :: h2 :: rest2 => isHex h1 && isHex h2 && specUnreservedZone rest2
      | _ => false
    else specUnreservedByte b && specUnreservedZone rest

def C6badZone : GoStr := cs ['a','!']

def C6badHost : GoStr := cs [':',':','1','%','2','5','a','!']

def C6bad : GoStr := cs ['h','t','t','p',':','/','/','[',':',':','1','%','2','5','a','!',']']

set_option maxRecDepth 1000000 in
/-- Counterexample to C6 as stated: `http://[::1%25a!]` parses
successfully with host-kind IPv6, although its `%25`-escaped zone `a!`
contains `!`, which is neither an unreserved character nor part of a
percent-encoded triplet (the code's zone validator also admits
sub-delims). -/
theorem C6_ipv6_zone_counterexample :
    (Parse C6bad).2 = none ∧
    ((Parse C6bad).1.getD {}).authority.host = C6badHost ∧
    ((Parse C6bad).1.getD {}).authority.ipType.isIPv6 = true ∧
    C6badHost.drop 3 = percentMark :: 0x32 :: 0x35 :: C6badZone ∧
    specUnreservedZone C6badZone = false :=
  ⟨by decide, by decide, by decide, by decide, by decide⟩

def isAsciiAlpha (b : Nat) : Bool := (0x41 ≤ b && b ≤ 0x5A) || (0x61 ≤ b && b ≤ 0x7A)

def alphaNum (b : Nat) : Bool := isAsciiAlpha b || isDigit b

/-- A plain DNS label: non-empty, an ASCII letter first, then ASCII letters
and digits. -/
def plainLabel (l : GoStr) : Bool :=
  match l with
  | [] => false
  | b :: rest => isAsciiAlpha b && rest.all alphaNum

/-- Labels joined with `.` separators. -/
def joinLabels : List GoStr → GoStr
  | [] => []
  | [l] => l
  | l :: ls => l ++ dotSeparator :: joinLabels ls

theorem alphanum_facts (b : Nat) (h : alphaNum b = true) :
    (unicodeIsLetter b || unicodeIsDigit b) = true ∧ b < 0x80 ∧
    b ≠ dotSeparator ∧ b ≠ percentMark ∧ b ≠ runeError := by
  simp only [alphaNum, isAsciiAlpha, isDigit, Bool.or_eq_true, Bool.and_eq_true,
    decide_eq_true_eq] at h
  refine ⟨?_, ?_, ?_, ?_, ?_⟩
  · simp only [unicodeIsLetter, unicodeIsDigit, Bool.or_eq_true, Bool.and_eq_true,
      decide_eq_true_eq, beq_iff_eq]
    omega
  · omega
  · simp only [dotSeparator]; omega
  · simp only [percentMark]; omega
  · simp only [runeError]; omega

theorem segLoop_plain (p : GoStr) (rest : GoStr) (fuel offset last : Nat) (once : Bool)
    (hp : ∀ b ∈ p, alphaNum b = true)
    (hf : p.length + rest.length ≤ fuel) :
    segLoop fuel (p ++ rest) offset last once =
      (if maxSegmentLength < offset + p.length ∧ p ≠ [] then .error [.invalidDNSName]
       else segLoop (fuel - p.length) rest (offset + p.length) (p.getLastD last)
              (once || !p.isEmpty)) := by
  induction p generalizing fuel offset last once with
  | nil =>
    rw [if_neg (by simp)]
    simp
  | cons b p' ih =>
    cases fuel with
    | zero => simp only [List.length_cons] at hf; omega
    | succ f =>
      obtain ⟨hld, hlt80, hndot, hnpct, hnerr⟩ := alphanum_facts b (hp b (by simp))
      have hp' : ∀ c ∈ p', alphaNum c = true := fun c hc => hp c (by simp [hc])
      simp only [List.cons_append, segLoop]
      rw [decodeRune_ascii b (p' ++ rest) hlt80]
      dsimp only
      rw [if_neg (by simp [hnerr]), if_neg (by simp [hnpct])]
      dsimp only
      rw [if_neg (by simp [hndot])]
      by_cases h63 : offset + 1 > maxSegmentLength
      · rw [if_pos h63, if_pos ?_]
        constructor
        · simp only [List.length_cons, maxSegmentLength] at *
          omega
        · simp
      · rw [if_neg h63, if_neg (by simp [hld]), List.drop_succ_cons, List.drop_zero]
        rw [ih f (offset + 1) b true hp' (by simp only [List.length_cons] at hf; omega)]
        by_cases hc : maxSegmentLength < offset + 1 + p'.length
        · have hpne : p' ≠ [] := by
            intro hcontra
            subst hcontra
            simp only [List.length_nil, Nat.add_zero] at hc
            exact h63 hc
          rw [if_pos ⟨hc, hpne⟩, if_pos ?_]
          constructor
          · simp only [List.length_cons]
            omega
          · simp
        · rw [if_neg (fun hcontra => hc hcontra.1),
              if_neg (by simp only [List.length_cons]; intro hcontra; exact hc (by omega))]
          have harith : offset + 1 + p'.length = offset + (p'.length + 1) := by omega
          simp only [List.length_cons, List.getLastD_cons, List.isEmpty_cons,
            Bool.not_false, Bool.or_true, Bool.true_or, harith, Nat.succ_sub_succ]

theorem getLastD_alphaNum (p : List Nat) (b : Nat)
    (hp : ∀ c ∈ p, alphaNum c = true) (hb : alphaNum b = true) :
    alphaNum (p.getLastD b) = true := by
  induction p generalizing b with
  | nil => exact hb
  | cons x xs ih =>
    rw [List.getLastD_cons]
    exact ih x (fun c hc => hp c (by simp [hc])) (hp x (by simp))

theorem validateFirstRuneInSegment_plain (b : Nat) (r : GoStr)
    (hb : isAsciiAlpha b = true) :
    validateFirstRuneInSegment (b :: r) = .ok (b, 1) := by
  obtain ⟨hld, hlt80, hndot, hnpct, hnerr⟩ :=
    alphanum_facts b (by simp [alphaNum, hb])
  have hletter : unicodeIsLetter b = true := by
    simp only [isAsciiAlpha, Bool.or_eq_true, Bool.and_eq_true,
      decide_eq_true_eq] at hb
    simp only [unicodeIsLetter, Bool.or_eq_true, Bool.and_eq_true,
      decide_eq_true_eq, beq_iff_eq]
    omega
  simp only [validateFirstRuneInSegment]
  rw [decodeRune_ascii b r hlt80]
  dsimp only
  rw [if_neg (by simp [hnerr]), if_neg (by simp [hndot]),
      if_neg (by simp [hnpct]), if_neg (by simp [hletter])]

theorem plainLabel_parts (l : GoStr) (hl : plainLabel l = true) :
    ∃ b p, l = b :: p ∧ isAsciiAlpha b = true ∧ ∀ c ∈ p, alphaNum c = true := by
  match l, hl with
  | b :: p, hl =>
    simp only [plainLabel, Bool.and_eq_true, List.all_eq_true] at hl
    exact ⟨b, p, rfl, hl.1, hl.2⟩

theorem validateHostSegment_long (l rest : GoStr) (hl : plainLabel l = true)
    (hlen : maxSegmentLength < l.length) :
    validateHostSegment (l ++ rest) = .error [.invalidDNSName] := by
  obtain ⟨b, p, rfl, hb, hp⟩ := plainLabel_parts l hl
  simp only [List.cons_append, validateHostSegment]
  rw [validateFirstRuneInSegment_plain b (p ++ rest) hb]
  dsimp only
  simp only [List.drop_succ_cons, List.drop_zero]
  rw [segLoop_plain p rest _ 1 b false hp (by simp)]
  rw [if_pos ?_]
  constructor
  · simp only [List.length_cons, maxSegmentLength] at hlen ⊢
    omega
  · intro hcontra
    subst hcontra
    simp only [List.length_cons, List.length_nil, maxSegmentLength] at hlen
    omega

theorem validateHostSegment_fit_nil (l : GoStr) (hl : plainLabel l = true)
    (hlen : l.length ≤ maxSegmentLength) :
    ∃ c, validateHostSegment l = .ok (c, l.length) ∧ (c == dotSeparator) = false := by
  obtain ⟨b, p, rfl, hb, hp⟩ := plainLabel_parts l hl
  have hban : alphaNum b = true := by simp [alphaNum, hb]
  have hlast : alphaNum (p.getLastD b) = true := getLastD_alphaNum p b hp hban
  obtain ⟨hld2, _, hnd2, _, _⟩ := alphanum_facts _ hlast
  refine ⟨p.getLastD b, ?_, by rw [beq_eq_false_iff_ne]; exact hnd2⟩
  simp only [validateHostSegment]
  rw [validateFirstRuneInSegment_plain b p hb]
  dsimp only
  simp only [List.drop_succ_cons, List.drop_zero]
  have hp2 : segLoop p.length p 1 b false =
      segLoop (p ++ ([] : GoStr)).length (p ++ ([] : GoStr)) 1 b false := by
    rw [List.append_nil]
  rw [hp2, segLoop_plain p [] _ 1 b false hp (by simp)]
  rw [if_neg ?_]
  · simp only [List.append_nil, Nat.sub_self, segLoop]
    rw [if_neg (by simp only [hld2, Bool.not_true, Bool.and_false]; simp)]
    simp only [List.length_cons]
    rw [Nat.add_comm 1 p.length]
  · intro hcontra
    simp only [List.length_cons, maxSegmentLength] at hlen hcontra
    omega

theorem validateHostSegment_fit_dot (l rest2 : GoStr) (hl : plainLabel l = true)
    (hlen : l.length ≤ maxSegmentLength) (hne : rest2 ≠ []) :
    validateHostSegment (l ++ dotSeparator :: rest2) = .ok (dotSeparator, l.length + 1) := by
  obtain ⟨b, p, rfl, hb, hp⟩ := plainLabel_parts l hl
  have hban : alphaNum b = true := by simp [alphaNum, hb]
  have hlast : alphaNum (p.getLastD b) = true := getLastD_alphaNum p b hp hban
  obtain ⟨hld2, _, _, _, _⟩ := alphanum_facts _ hlast
  simp only [List.cons_append, validateHostSegment]
  rw [validateFirstRuneInSegment_plain b (p ++ dotSeparator :: rest2) hb]
  dsimp only
  simp only [List.drop_succ_cons, List.drop_zero]
  rw [segLoop_plain p (dotSeparator :: rest2) _ 1 b false hp (by simp)]
  rw [if_neg ?_]
  · simp only [List.length_append, List.length_cons, Nat.add_sub_cancel_left, segLoop]
    rw [decodeRune_ascii dotSeparator rest2 (by decide)]
    dsimp only
    rw [if_neg (by decide), if_neg (by decide)]
    dsimp only
    rw [if_pos (by decide)]
    simp only [List.drop_succ_cons, List.drop_zero]
    rw [if_neg (by simp [List.isEmpty_iff, hne]),
        if_neg (by simp only [hld2, Bool.not_true, Bool.and_false]; simp)]
    rw [Nat.add_comm 1 p.length]
  · intro hcontra
    simp only [List.length_cons, maxSegmentLength] at hlen hcontra
    omega

theorem plainLabel_ne_nil (l : GoStr) (hl : plainLabel l = true) : l ≠ [] := by
  obtain ⟨b, p, rfl, -, -⟩ := plainLabel_parts l hl
  simp

theorem joinLabels_ne_nil (ls : List GoStr) (hne : ls ≠ [])
    (hp : ∀ l ∈ ls, plainLabel l = true) : joinLabels ls ≠ [] := by
  match ls with
  | [l] =>
    simp only [joinLabels]
    exact plainLabel_ne_nil l (hp l (by simp))
  | l :: x :: xs =>
    rw [show joinLabels (l :: x :: xs) = l ++ dotSeparator :: joinLabels (x :: xs) from rfl]
    simp

theorem dnsLoop_plain (ls : List GoStr) : ∀ (host : GoStr) (offset fuel : Nat),
    (∀ l ∈ ls, plainLabel l = true) → ls ≠ [] →
    host.drop offset = joinLabels ls →
    ls.length ≤ fuel →
    dnsLoop host offset fuel =
      (if ∃ l ∈ ls, maxSegmentLength < l.length then some [.invalidDNSName]
       else none) := by
  induction ls with
  | nil => intro _ _ _ _ hne _ _; exact absurd rfl hne
  | cons l ls' ih =>
    intro host offset fuel hp hne hdrop hfuel
    cases fuel with
    | zero => simp at hfuel
    | succ f =>
      have hl : plainLabel l = true := hp l (by simp)
      have hoff : offset < host.length := by
        by_contra hcontra
        have hnil : host.drop offset = [] := List.drop_eq_nil_of_le (by omega)
        rw [hnil] at hdrop
        exact joinLabels_ne_nil (l :: ls') hne hp hdrop.symm
      simp only [dnsLoop]
      rw [if_pos hoff, hdrop]
      cases ls' with
      | nil =>
        simp only [joinLabels]
        by_cases hlen : maxSegmentLength < l.length
        · have hlong := validateHostSegment_long l [] hl hlen
          rw [List.append_nil] at hlong
          rw [hlong]
          dsimp only
          rw [if_pos ⟨l, by simp, hlen⟩]
        · obtain ⟨c, hseg, hcd⟩ := validateHostSegment_fit_nil l hl (by omega)
          rw [hseg]
          dsimp only
          rw [hcd]
          simp only [Bool.false_eq_true, if_false]
          rw [if_neg ?_]
          rintro ⟨l', hm, hlen'⟩
          simp only [List.mem_singleton] at hm
          subst hm
          exact hlen hlen'
      | cons x xs =>
        rw [show joinLabels (l :: x :: xs) = l ++ dotSeparator :: joinLabels (x :: xs)
            from rfl]
        by_cases hlen : maxSegmentLength < l.length
        · rw [validateHostSegment_long l (dotSeparator :: joinLabels (x :: xs)) hl hlen]
          dsimp only
          rw [if_pos ⟨l, by simp, hlen⟩]
        · have hp2 : ∀ l' ∈ x :: xs, plainLabel l' = true :=
            fun l' hl' => hp l' (by simp [hl'])
          have hJne : joinLabels (x :: xs) ≠ [] :=
            joinLabels_ne_nil (x :: xs) (by simp) hp2
          rw [validateHostSegment_fit_dot l (joinLabels (x :: xs)) hl (by omega) hJne]
          dsimp only
          rw [if_pos (by simp)]
          have hdrop2 : host.drop (offset + (l.length + 1)) = joinLabels (x :: xs) := by
            rw [← List.drop_drop, hdrop]
            rw [show joinLabels (l :: x :: xs) = l ++ dotSeparator :: joinLabels (x :: xs)
                from rfl]
            rw [← List.drop_drop, drop_append_cons]
            simp
          rw [ih host (offset + (l.length + 1)) f hp2 (by simp) hdrop2
              (by simp only [List.length_cons] at hfuel ⊢; omega)]
          by_cases hex : ∃ l' ∈ x :: xs, maxSegmentLength < l'.length
          · obtain ⟨l', hm, hlen'⟩ := hex
            rw [if_pos ⟨l', hm, hlen'⟩, if_pos ⟨l', List.mem_cons_of_mem l hm, hlen'⟩]
          · rw [if_neg hex, if_neg ?_]
            rintro ⟨l', hm, hlen'⟩
            simp only [List.mem_cons] at hm
            rcases hm with hm | hm
            · subst hm; exact hlen hlen'
            · exact hex ⟨l', by simp [hm], hlen'⟩

theorem unreserved_plain (s : GoStr)
    (hs : ∀ b ∈ s, (alphaNum b || (b == dotSeparator)) = true) :
    validateUnreservedWithExtra s [] = none := by
  induction s with
  | nil => rfl
  | cons b rest ih =>
    have hb := hs b (by simp)
    have hrest : ∀ c ∈ rest, (alphaNum c || (c == dotSeparator)) = true :=
      fun c hc => hs c (by simp [hc])
    have hfacts : b < 0x80 ∧ b ≠ runeError ∧ b ≠ percentMark ∧
        allowedRune b [] = true := by
      cases halpha : alphaNum b with
      | true =>
        obtain ⟨hld, hlt, hnd, hnp, hne⟩ := alphanum_facts b halpha
        refine ⟨hlt, hne, hnp, ?_⟩
        simp only [Bool.or_eq_true] at hld
        simp only [allowedRune, Bool.or_eq_true]
        tauto
      | false =>
        have hbd : b = dotSeparator := by
          rw [halpha, Bool.false_or] at hb
          simpa using hb
        subst hbd
        refine ⟨by decide, by decide, by decide, by decide⟩
    obtain ⟨hlt, hne, hnp, hall⟩ := hfacts
    show unreservedLoop [] (rest.length + 1) (b :: rest) = none
    simp only [unreservedLoop]
    rw [decodeRune_ascii b rest hlt]
    dsimp only
    rw [if_neg (by simp [hne]), if_neg (by simp [hnp]), if_neg (by simp [hall])]
    simp only [List.drop_succ_cons, List.drop_zero]
    rw [unreservedLoop_fuel [] rest.length rest (le_refl _)]
    exact ih hrest

theorem joinLabels_labels_le (ls : List GoStr) (hp : ∀ l ∈ ls, plainLabel l = true) :
    ls.length ≤ (joinLabels ls).length := by
  induction ls with
  | nil => simp [joinLabels]
  | cons l ls' ih =>
    have hl0 : 0 < l.length :=
      List.length_pos.mpr (plainLabel_ne_nil l (hp l (by simp)))
    cases ls' with
    | nil =>
      simp only [joinLabels, List.length_cons, List.length_nil]
      omega
    | cons x xs =>
      have ih2 := ih (fun l' h => hp l' (by simp [h]))
      rw [show joinLabels (l :: x :: xs) = l ++ dotSeparator :: joinLabels (x :: xs)
          from rfl]
      simp only [List.length_cons, List.length_append] at ih2 ⊢
      omega

theorem joinLabels_bytes (ls : List GoStr) (hp : ∀ l ∈ ls, plainLabel l = true) :
    ∀ b ∈ joinLabels ls, (alphaNum b || (b == dotSeparator)) = true := by
  induction ls with
  | nil => simp [joinLabels]
  | cons l ls' ih =>
    have hlb : ∀ b ∈ l, (alphaNum b || (b == dotSeparator)) = true := by
      obtain ⟨c, p, hrw, hc, hpp⟩ := plainLabel_parts l (hp l (by simp))
      subst hrw
      intro b hb
      rcases List.mem_cons.mp hb with h | h
      · subst h; simp [alphaNum, hc]
      · simp [hpp b h]
    cases ls' with
    | nil => simpa [joinLabels] using hlb
    | cons x xs =>
      rw [show joinLabels (l :: x :: xs) = l ++ dotSeparator :: joinLabels (x :: xs)
          from rfl]
      intro b hb
      rcases List.mem_append.mp hb with h | h
      · exact hlb b h
      · rcases List.mem_cons.mp h with h2 | h2
        · subst h2; simp
        · exact ih (fun l' hl' => hp l' (by simp [hl'])) b h2

theorem validateDNSHostForScheme_plain (ls : List GoStr) (hne : ls ≠ [])
    (hp : ∀ l ∈ ls, plainLabel l = true) :
    validateDNSHostForScheme (joinLabels ls) =
      (if maxDomainLength < (joinLabels ls).length ∨
          ∃ l ∈ ls, maxSegmentLength < l.length
       then some [.invalidDNSName] else none) := by
  simp only [validateDNSHostForScheme]
  by_cases hlen : (joinLabels ls).length > maxDomainLength
  · rw [if_pos hlen, if_pos (Or.inl hlen)]
  · rw [if_neg hlen]
    have hjne : joinLabels ls ≠ [] := joinLabels_ne_nil ls hne hp
    rw [if_neg (by simp only [beq_iff_eq, List.length_eq_zero]; exact hjne)]
    rw [dnsLoop_plain ls (joinLabels ls) 0 (joinLabels ls).length hp hne (by simp)
        (joinLabels_labels_le ls hp)]
    by_cases hex : ∃ l ∈ ls, maxSegmentLength < l.length
    · rw [if_pos hex, if_pos (Or.inr hex)]
    · rw [if_neg hex, if_neg ?_]
      rintro (h | h)
      · exact hlen h
      · exact hex h

theorem validateHostForScheme_dns_some (scheme host : GoStr) (e : Err)
    (hdns : UsesDNSHostValidation scheme = true)
    (h : validateDNSHostForScheme host = some e) :
    validateHostForScheme host [scheme] = some e := by
  have h1 : validateHostForScheme host [scheme] =
      (match (if UsesDNSHostValidation scheme then validateDNSHostForScheme host
              else none) with
       | some e => some e
       | none =>
         match validateRegisteredHostForScheme host with
         | some e => some e
         | none => validateHostForScheme host []) := rfl
  rw [h1, hdns, if_pos rfl, h]

theorem validateHostForScheme_dns_ok (scheme host : GoStr)
    (hdns : UsesDNSHostValidation scheme = true)
    (h : validateDNSHostForScheme host = none)
    (hreg : validateUnreservedWithExtra host [] = none) :
    validateHostForScheme host [scheme] = none := by
  have h1 : validateHostForScheme host [scheme] =
      (match (if UsesDNSHostValidation scheme then validateDNSHostForScheme host
              else none) with
       | some e => some e
       | none =>
         match validateRegisteredHostForScheme host with
         | some e => some e
         | none => validateHostForScheme host []) := rfl
  have hreg2 : validateRegisteredHostForScheme host = none := by
    simp only [validateRegisteredHostForScheme, hreg]
  rw [h1, hdns, if_pos rfl, h, hreg2]
  rfl

def C5httpS : GoStr := cs ['h','t','t','p']

def C5label63 : GoStr := List.replicate 63 0x61

def C5label64 : GoStr := List.replicate 64 0x61

def C5ls255 : List GoStr := [C5label63, C5label63, C5label63, C5label63]

def C5ls256 : List GoStr :=
  [C5label63, C5label63, C5label63, List.replicate 62 0x61, [0x61]]

/-- C5: for every scheme validated as DNS, a host longer than 255 bytes is
rejected with `invalidDNSName`; a host of plain letter/digit labels with a
label over 63 bytes is rejected with `invalidDNSName`; and a host of plain
labels, each at most 63 bytes, totalling at most 255 bytes, passes host
validation. -/
theorem C5_dns_length_limits :
    (∀ scheme host, UsesDNSHostValidation scheme = true →
      maxDomainLength < host.length →
      validateHostForScheme host [scheme] = some [ErrKind.invalidDNSName]) ∧
    (∀ scheme ls, UsesDNSHostValidation scheme = true →
      (∀ l ∈ ls, plainLabel l = true) → ls ≠ [] →
      (∃ l ∈ ls, maxSegmentLength < l.length) →
      validateHostForScheme (joinLabels ls) [scheme] = some [ErrKind.invalidDNSName]) ∧
    (∀ scheme ls, UsesDNSHostValidation scheme = true →
      (∀ l ∈ ls, plainLabel l = true) → ls ≠ [] →
      (joinLabels ls).length ≤ maxDomainLength →
      (∀ l ∈ ls, l.length ≤ maxSegmentLength) →
      validateHostForScheme (joinLabels ls) [scheme] = none) := by
  refine ⟨?_, ?_, ?_⟩
  · intro scheme host hdns hlen
    refine validateHostForScheme_dns_some scheme host _ hdns ?_
    simp only [validateDNSHostForScheme]
    rw [if_pos hlen]
  · intro scheme ls hdns hp hne hex
    refine validateHostForScheme_dns_some scheme _ _ hdns ?_
    rw [validateDNSHostForScheme_plain ls hne hp, if_pos (Or.inr hex)]
  · intro scheme ls hdns hp hne hlen hlab
    refine validateHostForScheme_dns_ok scheme _ hdns ?_ ?_
    · rw [validateDNSHostForScheme_plain ls hne hp, if_neg ?_]
      rintro (h | h)
      · omega
      · obtain ⟨l, hm, hl⟩ := h
        exact absurd (hlab l hm) (by omega)
    · exact unreserved_plain _ (joinLabels_bytes ls hp)

set_option maxRecDepth 1000000 in
/-- Witness for C5: with scheme `http`, the 256-byte host (labels
63.63.63.62.1) fails, a single 64-byte label fails, the 255-byte host
63.63.63.63 passes, and a single 63-byte label passes. -/
theorem C5_dns_length_limits_witness :
    validateHostForScheme (joinLabels C5ls256) [C5httpS] =
      some [ErrKind.invalidDNSName] ∧
    validateHostForScheme (joinLabels [C5label64]) [C5httpS] =
      some [ErrKind.invalidDNSName] ∧
    validateHostForScheme (joinLabels C5ls255) [C5httpS] = none ∧
    validateHostForScheme (joinLabels [C5label63]) [C5httpS] = none :=
  ⟨C5_dns_length_limits.1 C5httpS (joinLabels C5ls256) (by decide) (by decide),
   C5_dns_length_limits.2.1 C5httpS [C5label64] (by decide) (by decide) (by simp)
     ⟨C5label64, by simp, by decide⟩,
   C5_dns_length_limits.2.2 C5httpS C5ls255 (by decide) (by decide) (by simp [C5ls255])
     (by decide) (by decide),
   C5_dns_length_limits.2.2 C5httpS [C5label63] (by decide) (by decide) (by simp)
     (by decide) (by decide)⟩


theorem drop_append_le (l1 l2 : List Nat) (n : Nat) (h : n ≤ l1.length) :
    (l1 ++ l2).drop n = l1.drop n ++ l2 := by
  rw [List.drop_append_eq_append_drop]
  have : n - l1.length = 0 := by omega
  rw [this, List.drop_zero]

theorem take_append_le (l1 l2 : List Nat) (n : Nat) (h : n ≤ l1.length) :
    (l1 ++ l2).take n = l1.take n := by
  rw [List.take_append_eq_append_take]
  have : n - l1.length = 0 := by omega
  rw [this, List.take_zero, List.append_nil]

theorem mid_take (A C : List Nat) (b : Nat) (n : Nat) (h : A.length + 1 ≤ n) :
    (A ++ b :: C).take n = A ++ b :: C.take (n - A.length - 1) := by
  rw [List.take_append_eq_append_take, List.take_of_length_le (by omega)]
  have h2 : n - A.length = (n - A.length - 1) + 1 := by omega
  rw [h2, List.take_succ_cons]
  simp

theorem mid_drop (A C : List Nat) (b : Nat) (n : Nat) (h : A.length + 1 ≤ n) :
    (A ++ b :: C).drop n = C.drop (n - A.length - 1) := by
  rw [List.drop_append_eq_append_drop, List.drop_of_length_le (by omega)]
  have h2 : n - A.length = (n - A.length - 1) + 1 := by omega
  rw [h2, List.drop_succ_cons, List.nil_append]
  simp

theorem validateHost_ip (host : GoStr) (iv6 : Bool) (schemes : List GoStr)
    (ip : IpType) (h : validateHost host iv6 schemes = .ok ip) :
    ip.isIPv6 = iv6 := by
  unfold validateHost at h
  repeat' split at h
  all_goals try (cases h)
  all_goals simp_all

theorem authorityValidate_ok (a : AuthorityInfo) (s : List GoStr) (ip : IpType)
    (h : authorityValidate a s = .ok ip) :
    (a.host.isEmpty = true → ip = {}) ∧
    (a.host.isEmpty = false → ip.isIPv6 = a.ipType.isIPv6) := by
  unfold authorityValidate at h
  constructor
  · intro he
    rw [he] at h
    simp only [if_true] at h
    repeat' split at h
    all_goals try (cases h)
    all_goals simp_all
  · intro he
    rw [he] at h
    simp only [Bool.false_eq_true, if_false] at h
    repeat' split at h
    all_goals try (cases h)
    all_goals simp_all
    exact validateHost_ip _ _ _ _ (by assumption)

theorem uriValidate_ok_shape (u v : Uri) (h : uriValidate u = (none, v)) :
    (u.hierPart.isEmpty = true ∧ v = u) ∨
    (∃ ip, authorityValidate u.authority [u.scheme] = .ok ip ∧
      v = { u with authority := { u.authority with ipType := ip } }) := by
  unfold uriValidate at h
  rcases hs : (if u.scheme.isEmpty then none else validateScheme u.scheme) with _ | e
  swap
  · rw [hs] at h; simp at h
  rw [hs] at h
  dsimp only at h
  rcases hq : (if u.query.isEmpty then none else validateQuery u.query) with _ | e
  swap
  · rw [hq] at h; simp at h
  rw [hq] at h
  dsimp only at h
  rcases hf : (if u.fragment.isEmpty then none else validateFragment u.fragment) with _ | e
  swap
  · rw [hf] at h; simp at h
  rw [hf] at h
  dsimp only at h
  by_cases hh : u.hierPart.isEmpty = true
  · rw [if_pos hh] at h
    simp only [Prod.mk.injEq] at h
    exact Or.inl ⟨hh, h.2.symm⟩
  · rw [if_neg hh] at h
    rcases hav : authorityValidate u.authority [u.scheme] with e | ip
    · rw [hav] at h; simp at h
    · rw [hav] at h
      dsimp only at h
      simp only [Prod.mk.injEq] at h
      exact Or.inr ⟨ip, rfl, h.2.symm⟩

/-- The host/port/bracket tail of `parseAuthority` (uri.go), factored out
with the computed `host1`, `userinfo` and `path` slices as arguments. -/
def parseHostPort (host1 userinfo path : GoStr) : Except Err AuthorityInfo :=
  let bracket := indexByte host1 openingBracketMark
  if bracket ≥ 0 then
    let closingbracket := indexByte host1 closingBracketMark
    if closingbracket > bracket + 1 then
      let host2 := goSlice host1 (bracket + 1) closingbracket
      let rawHost := host1.drop (closingbracket + 1).toNat
      let colon := indexByte rawHost colonMark
      let port :=
        if colon ≥ 0 && colon + 1 < (rawHost.length : Int) then
          rawHost.drop (colon + 1).toNat
        else []
      .ok { pre := authorityPre, userinfo, host := host2, port, path,
            ipType := { isIPv6 := true } }
    else if closingbracket > bracket then .error [.invalidHostAddress]
    else .error [.invalidHostAddress]
  else
    let colon := indexByte host1 colonMark
    let port :=
      if colon ≥ 0 && colon + 1 < (host1.length : Int) then
        host1.drop (colon + 1).toNat
      else []
    let host2 := if colon ≥ 0 then host1.take colon.toNat else host1
    .ok { pre := authorityPre, userinfo, host := host2, port, path }

/-- The userinfo/host split of `parseAuthority` (uri.go), factored out with
the pre-slash slice `hier1` and the `path` slice as arguments. -/
def parseAuthorityInner (hier1 path : GoStr) : Except Err AuthorityInfo :=
  let at_ := indexByte hier1 atHost
  let userinfo := if at_ > 0 then hier1.take at_.toNat else []
  let host1 :=
    if at_ > 0 then
      (if at_ + 1 < (hier1.length : Int) then hier1.drop (at_ + 1).toNat else hier1)
    else hier1
  parseHostPort host1 userinfo path

theorem parseAuthority_inner_eq (hier : GoStr)
    (h : goStartsWith hier authorityPre = true) :
    parseAuthority hier =
      (let rest := hier.drop 2
       let slashEnd := indexByte rest slashMark
       parseAuthorityInner
         (if slashEnd > -1 then rest.take slashEnd.toNat else rest)
         (if slashEnd > -1 then rest.drop slashEnd.toNat else [])) := by
  unfold parseAuthority parseAuthorityInner parseHostPort
  rw [h]
  rfl

/-- Syntactic faithfulness of the host/port part of an authority: a
bracketed host only at position 0 with at most a `:port` (with non-empty
port) behind the closing bracket, and no dangling `:` after a bare
host. -/
def hostPortCond (host1 : GoStr) : Prop :=
  let bracket := indexByte host1 openingBracketMark
  if bracket ≥ 0 then
    bracket = 0 ∧
    (let rawHost := host1.drop ((indexByte host1 closingBracketMark) + 1).toNat
     rawHost = [] ∨ (rawHost.head? = some colonMark ∧ 1 < rawHost.length))
  else
    (indexByte host1 colonMark ≥ 0 →
     indexByte host1 colonMark + 1 < (host1.length : Int))

/-- Syntactic faithfulness of the authority slice: no truncated-`@`
userinfo, and `hostPortCond` for the host slice. -/
def authorityCond (hier : GoStr) : Prop :=
  goStartsWith hier authorityPre = true →
  (let rest := hier.drop 2
   let slashEnd := indexByte rest slashMark
   let hier1 := if slashEnd > -1 then rest.take slashEnd.toNat else rest
   let at_ := indexByte hier1 atHost
   (at_ > 0 → at_ + 1 < (hier1.length : Int)) ∧
   hostPortCond
     (if at_ > 0 then
        (if at_ + 1 < (hier1.length : Int) then hier1.drop (at_ + 1).toNat else hier1)
      else hier1))

theorem hostPort_roundtrip (host1 userinfo path0 : GoStr) (a : AuthorityInfo)
    (ip : IpType)
    (hpa : parseHostPort host1 userinfo path0 = .ok a)
    (hip : (a.host.isEmpty = true → ip = {}) ∧
           (a.host.isEmpty = false → ip.isIPv6 = a.ipType.isIPv6))
    (hbc : hostPortCond host1) :
    authorityString { a with ipType := ip } =
      authorityPre ++ userinfo ++ (if 0 < userinfo.length then [atHost] else []) ++
        host1 ++ path0 := by
  unfold parseHostPort at hpa
  unfold hostPortCond at hbc
  simp only [] at hpa hbc
  by_cases hbr : indexByte host1 openingBracketMark ≥ 0
  · rw [if_pos hbr] at hpa hbc
    obtain ⟨hbr0, hshape⟩ := hbc
    by_cases hcl : indexByte host1 closingBracketMark >
        indexByte host1 openingBracketMark + 1
    swap
    · rw [if_neg hcl] at hpa
      split at hpa <;> cases hpa
    · rw [if_pos hcl] at hpa
      rw [hbr0] at hpa hcl
      have hc0 : (0 : Int) ≤ indexByte host1 closingBracketMark := by omega
      obtain ⟨iC, hiC⟩ := Int.eq_ofNat_of_zero_le hc0
      rw [hiC] at hpa hcl
      have hiC1 : 1 < iC := by exact_mod_cast hcl
      obtain ⟨hClt, hCeq, -⟩ := indexByte_split host1 closingBracketMark iC hiC
      obtain ⟨-, hBeq, -⟩ := indexByte_split host1 openingBracketMark 0 hbr0
      simp only [List.take_zero, List.nil_append] at hBeq
      have hh1 : host1 = openingBracketMark :: host1.drop 1 := hBeq.symm
      have htake : host1.take iC = openingBracketMark :: (host1.drop 1).take (iC - 1) := by
        conv_lhs => rw [hh1]
        have : iC = (iC - 1) + 1 := by omega
        rw [this, List.take_succ_cons]
        simp
      have ht : host1.drop 1 =
          (host1.take iC).drop 1 ++ closingBracketMark :: host1.drop (iC + 1) := by
        conv_lhs => rw [← hCeq]
        rw [htake]
        simp [drop_append_le]
      have hhost2 : goSlice host1 (0 + 1) (iC : Int) = (host1.take iC).drop 1 := by
        simp [goSlice]
      rw [hhost2] at hpa
      have hraw : ((iC : Int) + 1).toNat = iC + 1 := by omega
      rw [hraw] at hpa
      have hhost2ne : ((host1.take iC).drop 1).isEmpty = false := by
        rw [htake, List.drop_succ_cons, List.drop_zero]
        have hlen : (host1.drop 1).length = host1.length - 1 := by simp
        have : ((host1.drop 1).take (iC - 1)).length = iC - 1 := by
          rw [List.length_take]
          omega
        cases hx : (host1.drop 1).take (iC - 1) with
        | nil => rw [hx] at this; simp at this; omega
        | cons y ys => simp
      rcases hshape with hnil | ⟨hhead, hlen2⟩
      · rw [hiC] at hnil
        rw [hraw] at hnil
        rw [hnil] at hpa
        simp only [indexByte] at hpa
        rw [if_neg (by simp)] at hpa
        cases hpa
        have hipv6 : ip.isIPv6 = true := by
          rw [hip.2 hhost2ne]
        simp only [authorityString, hipv6, if_true]
        conv_rhs => rw [hh1, ht, hnil]
        simp [List.append_assoc]
      · rw [hiC, hraw] at hhead hlen2
        rcases hx : host1.drop (iC + 1) with _ | ⟨r0, p⟩
        · rw [hx] at hhead; simp at hhead
        · rw [hx] at hhead hlen2 hpa
          simp only [List.head?_cons, Option.some.injEq] at hhead
          subst hhead
          have hcolon : indexByte (colonMark :: p) colonMark = 0 := by
            simp [indexByte]
          rw [hcolon] at hpa
          simp only [List.length_cons] at hlen2
          have hb2 : (decide (((0 : Int)) ≥ 0) &&
              decide ((0 : Int) + 1 < ((colonMark :: p).length : Int))) = true := by
            simp only [Bool.and_eq_true, decide_eq_true_eq, List.length_cons]
            constructor
            · omega
            · push_cast
              omega
          rw [if_pos hb2] at hpa
          have hdp : ((0 : Int) + 1).toNat = 1 := by decide
          rw [hdp] at hpa
          rw [show List.drop 1 (colonMark :: p) = p from rfl] at hpa
          cases hpa
          have hipv6 : ip.isIPv6 = true := by
            rw [hip.2 hhost2ne]
          simp only [authorityString, hipv6, if_true]
          have hpne : 0 < p.length := by omega
          rw [if_pos hpne]
          conv_rhs => rw [hh1, ht, hx]
          simp [List.append_assoc]
  · rw [if_neg hbr] at hpa hbc
    by_cases hco : indexByte host1 colonMark ≥ 0
    · have hco2 := hbc hco
      obtain ⟨iK, hiK⟩ := Int.eq_ofNat_of_zero_le hco
      rw [hiK] at hpa hco2
      obtain ⟨hKlt, hKeq, -⟩ := indexByte_split host1 colonMark iK hiK
      have hb1 : ((iK : Int)) ≥ 0 := by omega
      have hb2 : (decide (((iK : Int)) ≥ 0) &&
          decide ((iK : Int) + 1 < (host1.length : Int))) = true := by
        simp only [Bool.and_eq_true, decide_eq_true_eq]
        exact ⟨hb1, hco2⟩
      rw [if_pos hb2] at hpa
      rw [if_pos hb1] at hpa
      have htn : ((iK : Int) + 1).toNat = iK + 1 := by omega
      have htn2 : ((iK : Int)).toNat = iK := by omega
      rw [htn, htn2] at hpa
      cases hpa
      have hipf : ip.isIPv6 = false := by
        by_cases hhe : (host1.take iK).isEmpty = true
        · rw [hip.1 hhe]
        · rw [hip.2 (by revert hhe; cases (host1.take iK).isEmpty <;> simp)]
      simp only [authorityString, hipf, Bool.false_eq_true, if_false]
      have hportne : 0 < (host1.drop (iK + 1)).length := by
        rw [List.length_drop]
        have : iK + 1 < host1.length := by exact_mod_cast hco2
        omega
      rw [if_pos hportne]
      conv_rhs => rw [← hKeq]
      simp [List.append_assoc]
    · have hb3 : ¬((decide ((indexByte host1 colonMark) ≥ 0) &&
          decide (indexByte host1 colonMark + 1 < (host1.length : Int))) = true) := by
        simp only [Bool.and_eq_true, decide_eq_true_eq]
        intro hcontra
        exact hco hcontra.1
      rw [if_neg hb3] at hpa
      rw [if_neg hco] at hpa
      cases hpa
      have hipf : ip.isIPv6 = false := by
        by_cases hhe : host1.isEmpty = true
        · rw [hip.1 hhe]
        · rw [hip.2 (by revert hhe; cases host1.isEmpty <;> simp)]
      simp only [authorityString, hipf, Bool.false_eq_true, if_false]
      simp [List.append_assoc]

theorem parseAuthorityInner_roundtrip (H1 path0 : GoStr) (a : AuthorityInfo)
    (ip : IpType)
    (hpa : parseAuthorityInner H1 path0 = .ok a)
    (hip : (a.host.isEmpty = true → ip = {}) ∧
           (a.host.isEmpty = false → ip.isIPv6 = a.ipType.isIPv6))
    (hat : indexByte H1 atHost > 0 → indexByte H1 atHost + 1 < (H1.length : Int))
    (hbc : hostPortCond
      (if indexByte H1 atHost > 0 then
        (if indexByte H1 atHost + 1 < (H1.length : Int) then
          H1.drop (indexByte H1 atHost + 1).toNat
        else H1)
      else H1)) :
    authorityString { a with ipType := ip } = authorityPre ++ (H1 ++ path0) := by
  unfold parseAuthorityInner at hpa
  simp only [] at hpa
  by_cases hat0 : indexByte H1 atHost > 0
  · have hat1 := hat hat0
    rw [if_pos hat0, if_pos hat1] at hpa hbc
    rw [if_pos hat0] at hpa
    obtain ⟨iA, hiA⟩ := Int.eq_ofNat_of_zero_le (by omega : (0:Int) ≤ indexByte H1 atHost)
    rw [hiA] at hpa hbc hat0 hat1
    have htn : ((iA : Int) + 1).toNat = iA + 1 := by omega
    have htn2 : ((iA : Int)).toNat = iA := by omega
    rw [htn] at hpa hbc
    rw [htn2] at hpa
    obtain ⟨hAlt, hAeq, -⟩ := indexByte_split H1 atHost iA hiA
    have h := hostPort_roundtrip (H1.drop (iA + 1)) (H1.take iA) path0 a ip hpa hip hbc
    rw [h]
    have huine : 0 < (H1.take iA).length := by
      rw [List.length_take]
      have : 0 < iA := by exact_mod_cast hat0
      omega
    rw [if_pos huine]
    conv_rhs => rw [← hAeq]
    simp [List.append_assoc]
  · rw [if_neg hat0] at hpa hbc
    rw [if_neg hat0] at hpa
    have h := hostPort_roundtrip H1 [] path0 a ip hpa hip hbc
    rw [h]
    simp

theorem parseAuthority_roundtrip (hier : GoStr) (a : AuthorityInfo) (ip : IpType)
    (hpa : parseAuthority hier = .ok a)
    (hip : (a.host.isEmpty = true → ip = {}) ∧
           (a.host.isEmpty = false → ip.isIPv6 = a.ipType.isIPv6))
    (hcond : authorityCond hier) :
    authorityString { a with ipType := ip } = hier := by
  by_cases hsw : goStartsWith hier authorityPre = true
  case neg =>
    unfold parseAuthority at hpa
    have hswf : goStartsWith hier authorityPre = false := by
      revert hsw; cases goStartsWith hier authorityPre <;> simp
    rw [hswf] at hpa
    simp only [Bool.not_false] at hpa
    rw [if_pos trivial] at hpa
    cases hpa
    have hip0 : ip = {} := hip.1 rfl
    subst hip0
    simp [authorityString]
  case pos =>
    have h2 : hier = slashMark :: slashMark :: hier.drop 2 := by
      have ht : hier.take 2 = authorityPre := by
        simpa [goStartsWith] using hsw
      conv_lhs => rw [← List.take_append_drop 2 hier]
      rw [ht]
      simp [authorityPre, slashMark]
    rw [parseAuthority_inner_eq hier hsw] at hpa
    simp only [] at hpa
    have hc := hcond hsw
    simp only [] at hc
    by_cases hsE : indexByte (hier.drop 2) slashMark > -1
    · rw [if_pos hsE] at hpa hc
      rw [if_pos hsE] at hpa
      have h := parseAuthorityInner_roundtrip _ _ a ip hpa hip hc.1 hc.2
      rw [h]
      conv_rhs => rw [h2]
      rw [List.take_append_drop]
      simp [authorityPre, slashMark]
    · rw [if_neg hsE] at hpa hc
      rw [if_neg hsE] at hpa
      have h := parseAuthorityInner_roundtrip _ _ a ip hpa hip hc.1 hc.2
      rw [h]
      conv_rhs => rw [h2]
      simp [authorityPre, slashMark]

theorem take_decomp (s : List Nat) (i j : Nat) (hij : i ≤ j) :
    s.take j = s.take i ++ (s.take j).drop i := by
  conv_lhs => rw [← List.take_append_drop i (s.take j)]
  rw [List.take_take, Nat.min_eq_left hij]

theorem indexByte_same_pos (s : GoStr) (b1 b2 : Nat) (i : Nat)
    (h1 : indexByte s b1 = (i : Int)) (h2 : indexByte s b2 = (i : Int)) : b1 = b2 := by
  obtain ⟨hlt1, heq1, -⟩ := indexByte_split s b1 i h1
  obtain ⟨-, heq2, -⟩ := indexByte_split s b2 i h2
  have hcomb : s.take i ++ b1 :: s.drop (i + 1) = s.take i ++ b2 :: s.drop (i + 1) :=
    heq1.trans heq2.symm
  have h3 := List.append_cancel_left hcomb
  exact ((List.cons.injEq _ _ _ _).mp h3).1

theorem assemble_ok (U u : Uri)
    (h : ((some (uriValidate U).2, (uriValidate U).1) : Option Uri × Option Err) =
         (some u, none)) :
    uriValidate U = (none, u) := by
  rw [Prod.mk.injEq] at h
  simp only [Option.some.injEq] at h
  obtain ⟨hu, hv⟩ := h
  rw [← hv, ← hu]

theorem uriString_of_ok (scheme hier query fragment : GoStr) (a : AuthorityInfo)
    (u : Uri)
    (hval : uriValidate { scheme := scheme, hierPart := hier, query := query,
                          fragment := fragment, authority := a } = (none, u))
    (hpa : parseAuthority hier = .ok a)
    (hca : authorityCond hier) :
    uriString u =
      (if 0 < scheme.length then scheme ++ [colonMark] else []) ++ hier ++
      (if 0 < query.length then questionMark :: query else []) ++
      (if 0 < fragment.length then fragmentMark :: fragment else []) := by
  rcases uriValidate_ok_shape _ _ hval with ⟨hemp, rfl⟩ | ⟨ip, hav, rfl⟩
  · have hie : hier = [] := by simpa using hemp
    subst hie
    have ha : a = {} := by
      rw [show parseAuthority ([] : GoStr) = .ok ({} : AuthorityInfo) from rfl] at hpa
      cases hpa
      rfl
    subst ha
    simp [uriString, authorityString]
  · have hip := authorityValidate_ok a [scheme] ip hav
    have hstr := parseAuthority_roundtrip hier a ip hpa hip hca
    simp only [uriString]
    rw [hstr]

theorem glue_mid (s : GoStr) (j i : Nat) (b : Nat) (hji : j ≤ i)
    (hsplit : s.take i ++ b :: s.drop (i + 1) = s) (tail : GoStr)
    (htail : tail = s.drop (i + 1)) :
    s.take j ++ ((s.take i).drop j ++ b :: tail) = s := by
  rw [htail, ← List.append_assoc, ← take_decomp s j i hji, hsplit]

/-- Syntactic faithfulness of an input for the round-trip: the effective
`?` separator is not the last byte, `#` is not the last byte, an effective
`?` is not immediately followed by `#`, and the authority slice satisfies
`authorityCond`. -/
def faithful (raw : GoStr) : Prop :=
  let se := indexByte raw colonMark
  let hq := indexByte raw questionMark
  let f := indexByte raw fragmentMark
  let h1 := if f > 0 && f < hq then f else hq
  let curr : Int :=
    if se > 0 && !goStartsWith raw authorityPre then se + 1 else 0
  let hEnd : Int := if h1 ≥ 0 then h1 else if f ≥ 0 then f else (raw.length : Int)
  (f ≥ 0 → f ≠ (raw.length : Int) - 1) ∧
  (h1 ≥ 0 → h1 ≠ (raw.length : Int) - 1) ∧
  (hq > 0 → f > 0 → hq < f → f ≠ hq + 1) ∧
  authorityCond (goSlice raw curr hEnd)

theorem parseAfterScheme_roundtrip (raw : GoStr) (se h1 f : Int) (scheme : GoStr)
    (u : Uri)
    (h : parseAfterScheme raw se h1 f scheme = (some u, none))
    (hfq : f = indexByte raw fragmentMark)
    (hh1 : h1 = (if f > 0 && f < indexByte raw questionMark then f
                 else indexByte raw questionMark))
    (hpre : (if 0 < scheme.length then scheme ++ [colonMark] else []) =
            raw.take (se + 1).toNat)
    (hse1 : 0 ≤ se + 1)
    (hseh : h1 > 0 → se + 1 ≤ h1)
    (hsef : f > 0 → se + 1 ≤ f)
    (hq0 : indexByte raw questionMark ≠ 0)
    (hf0 : f ≠ 0)
    (hfc1 : f ≥ 0 → f ≠ (raw.length : Int) - 1)
    (hfc2 : h1 ≥ 0 → h1 ≠ (raw.length : Int) - 1)
    (hfc3 : indexByte raw questionMark > 0 → f > 0 →
            indexByte raw questionMark < f → f ≠ indexByte raw questionMark + 1)
    (hca : authorityCond (goSlice raw (se + 1)
            (if h1 ≥ 0 then h1 else if f ≥ 0 then f else (raw.length : Int)))) :
    uriString u = raw := by
  obtain ⟨j, hj⟩ := Int.eq_ofNat_of_zero_le hse1
  have hpre' : (if 0 < scheme.length then scheme ++ [colonMark] else []) =
      raw.take j := by
    rw [hpre, hj, Int.toNat_natCast]
  unfold parseAfterScheme at h
  simp only [] at h
  by_cases hA : (h1 == (raw.length : Int) - 1 ||
      (decide (h1 < 0) && decide (f < 0))) = true
  · rw [if_pos hA] at h
    have hAfacts : h1 < 0 ∧ f < 0 := by
      simp only [Bool.or_eq_true, beq_iff_eq, Bool.and_eq_true,
        decide_eq_true_eq] at hA
      rcases hA with hA1 | hA2
      · by_cases hge : h1 ≥ 0
        · exact absurd hA1 (hfc2 hge)
        · have hlen0 : raw.length = 0 := by omega
          have hraw : raw = [] := List.length_eq_zero.mp hlen0
          constructor
          · omega
          · rw [hfq, hraw]
            simp [indexByte]
      · exact hA2
    obtain ⟨hh1neg, hfneg⟩ := hAfacts
    rw [if_pos hh1neg] at h
    have hier_eq : goSlice raw (se + 1) ((raw.length : Int)) = raw.drop j := by
      rw [hj]
      simp [goSlice]
    rw [hier_eq] at h
    rw [if_neg (by omega), if_neg (by omega), hier_eq] at hca
    rcases hpa : parseAuthority (raw.drop j) with e | a
    · rw [hpa] at h; simp at h
    · rw [hpa] at h
      dsimp only at h
      have hval := assemble_ok _ _ h
      have hstr := uriString_of_ok scheme (raw.drop j) [] [] a u hval hpa hca
      rw [hstr, hpre']
      simp [List.take_append_drop]
  · rw [if_neg hA] at h
    have hq_ne : indexByte raw questionMark ≠ 0 := hq0
    have hlt_len : ∀ (b : Nat) (i : Nat), indexByte raw b = (i : Int) →
        i < raw.length := fun b i hi => (indexByte_split raw b i hi).1
    by_cases hB : h1 > 0
    · rw [if_pos hB] at h
      obtain ⟨ih1, hih1⟩ := Int.eq_ofNat_of_zero_le (le_of_lt hB)
      have hjle : j ≤ ih1 := by
        have := hseh hB
        omega
      have hslice : goSlice raw (se + 1) h1 = (raw.take ih1).drop j := by
        rw [hj, hih1]
        simp [goSlice]
      rw [hslice] at h
      rw [if_pos (by omega : h1 ≥ 0), hslice] at hca
      rcases hpa : parseAuthority ((raw.take ih1).drop j) with e | a
      · rw [hpa] at h; simp at h
      · rw [hpa] at h
        dsimp only at h
        unfold parseTail at h
        simp only [] at h
        rw [if_neg (by
          simp only [Bool.and_eq_true, beq_iff_eq, decide_eq_true_eq]
          intro hcontra
          omega)] at h
        by_cases hC : f > 0
        · rw [if_pos hC] at h
          rw [if_neg (by omega : ¬h1 < 0)] at h
          obtain ⟨if_, hif⟩ := Int.eq_ofNat_of_zero_le (le_of_lt hC)
          have hfIdx : indexByte raw fragmentMark = (if_ : Int) := by
            rw [← hfq]; exact hif
          obtain ⟨hIlt, hIeq, -⟩ := indexByte_split raw fragmentMark if_ hfIdx
          have hflt : f + 1 < (raw.length : Int) := by
            have := hfc1 (by omega)
            omega
          rw [if_pos hflt] at h
          have hfr : (f + 1).toNat = if_ + 1 := by omega
          rw [hfr] at h
          by_cases hD : (decide (f > 0) && decide (f < indexByte raw questionMark)) = true
          · rw [if_pos hD] at hh1
            rw [if_pos (by omega : h1 + 1 < (raw.length : Int))] at h
            rw [if_neg (by omega : ¬f < 0)] at h
            rw [if_neg (by omega : ¬h1 < f - 1)] at h
            have hii : ih1 = if_ := by omega
            subst hii
            have hval := assemble_ok _ _ h
            have hstr := uriString_of_ok scheme ((raw.take ih1).drop j) []
                (raw.drop (ih1 + 1)) a u hval hpa hca
            rw [hstr, hpre']
            have hfragne : 0 < (raw.drop (ih1 + 1)).length := by
              rw [List.length_drop]
              omega
            rw [if_pos hfragne]
            simp only [List.length_nil, lt_irrefl, if_false, List.append_nil]
            rw [List.append_assoc]
            exact glue_mid raw j ih1 fragmentMark hjle hIeq _ rfl
          · rw [if_neg hD] at hh1
            subst hh1
            have hqpos : indexByte raw questionMark > 0 := hB
            obtain ⟨hQlt, hQeq, -⟩ := indexByte_split raw questionMark ih1 hih1
            have hqlef : indexByte raw questionMark ≤ f := by
              by_contra hcon
              exact hD (by
                simp only [Bool.and_eq_true, decide_eq_true_eq]
                exact ⟨hC, by omega⟩)
            have hqnef : indexByte raw questionMark ≠ f := by
              intro hcontra
              have hq2 : indexByte raw questionMark = (if_ : Int) := by
                rw [hcontra]; exact hif
              have : questionMark = fragmentMark :=
                indexByte_same_pos raw questionMark fragmentMark if_ hq2 hfIdx
              exact absurd this (by decide)
            have hqltf : indexByte raw questionMark < f := lt_of_le_of_ne hqlef hqnef
            have hfne : f ≠ indexByte raw questionMark + 1 := hfc3 hqpos hC hqltf
            rw [if_pos (by omega : indexByte raw questionMark + 1 < (raw.length : Int))] at h
            rw [if_neg (by omega : ¬f < 0)] at h
            rw [if_pos (by omega : indexByte raw questionMark < f - 1)] at h
            have hqslice : goSlice raw (indexByte raw questionMark + 1) f =
                (raw.take if_).drop (ih1 + 1) := by
              rw [hih1, hif]
              have ht1 : ((ih1 : Int) + 1).toNat = ih1 + 1 := by omega
              simp [goSlice, ht1]
            rw [hqslice] at h
            have hval := assemble_ok _ _ h
            have hstr := uriString_of_ok scheme ((raw.take ih1).drop j)
                ((raw.take if_).drop (ih1 + 1)) (raw.drop (if_ + 1)) a u hval hpa hca
            rw [hstr, hpre']
            have hihlt : ih1 < if_ := by omega
            have hqne : 0 < ((raw.take if_).drop (ih1 + 1)).length := by
              rw [List.length_drop, List.length_take]
              omega
            have hfragne : 0 < (raw.drop (if_ + 1)).length := by
              rw [List.length_drop]
              omega
            rw [if_pos hqne, if_pos hfragne]
            have hinner : raw.drop (ih1 + 1) =
                (raw.take if_).drop (ih1 + 1) ++ fragmentMark :: raw.drop (if_ + 1) := by
              conv_lhs => rw [← hIeq]
              rw [drop_append_le _ _ _ (by rw [List.length_take]; omega)]
            conv_rhs => rw [← hQeq, hinner]
            rw [← take_decomp raw j ih1 hjle]
            simp [List.append_assoc]
        · have hfneg : f < 0 := by omega
          rw [if_neg (by omega : ¬f > 0)] at h
          have hDf : ¬((decide (f > 0) && decide (f < indexByte raw questionMark)) = true) := by
            simp only [Bool.and_eq_true, decide_eq_true_eq]
            intro hcontra
            omega
          rw [if_neg hDf] at hh1
          subst hh1
          obtain ⟨hQlt, hQeq, -⟩ := indexByte_split raw questionMark ih1 hih1
          have hq1len : indexByte raw questionMark + 1 < (raw.length : Int) := by
            have := hfc2 (by omega)
            omega
          rw [if_pos hq1len, if_pos hfneg] at h
          have hqd : (indexByte raw questionMark + 1).toNat = ih1 + 1 := by omega
          rw [hqd] at h
          have hval := assemble_ok _ _ h
          have hstr := uriString_of_ok scheme ((raw.take ih1).drop j)
              (raw.drop (ih1 + 1)) [] a u hval hpa hca
          rw [hstr, hpre']
          rw [if_pos (by rw [List.length_drop]; omega :
            0 < (raw.drop (ih1 + 1)).length)]
          simp only [List.length_nil, lt_irrefl, if_false, List.append_nil]
          rw [List.append_assoc]
          exact glue_mid raw j ih1 questionMark hjle hQeq _ rfl
    · rw [if_neg hB] at h
      have hh1neg : h1 < 0 := by
        by_cases hd : (decide (f > 0) && decide (f < indexByte raw questionMark)) = true
        · rw [if_pos hd] at hh1
          omega
        · rw [if_neg hd] at hh1
          have : indexByte raw questionMark ≠ 0 := hq0
          omega
      have hfpos : f > 0 := by
        simp only [Bool.or_eq_true, beq_iff_eq, Bool.and_eq_true,
          decide_eq_true_eq, not_or, not_and] at hA
        have := hA.2 hh1neg
        omega
      unfold parseTail at h
      simp only [] at h
      rw [if_neg (by
        simp only [Bool.and_eq_true, beq_iff_eq, decide_eq_true_eq]
        intro hcontra
        exact (hfc1 (by omega)) hcontra.1)] at h
      rw [if_pos hfpos] at h
      rw [if_pos hh1neg] at h
      obtain ⟨if_, hif⟩ := Int.eq_ofNat_of_zero_le (le_of_lt hfpos)
      have hfIdx : indexByte raw fragmentMark = (if_ : Int) := by
        rw [← hfq]; exact hif
      obtain ⟨hIlt, hIeq, -⟩ := indexByte_split raw fragmentMark if_ hfIdx
      have hjlef : j ≤ if_ := by
        have := hsef hfpos
        omega
      have hslice : goSlice raw (se + 1) f = (raw.take if_).drop j := by
        rw [hj, hif]
        simp [goSlice]
      rw [hslice] at h
      rw [if_neg (by omega : ¬h1 ≥ 0), if_pos (by omega : f ≥ 0), hslice] at hca
      rcases hpa : parseAuthority ((raw.take if_).drop j) with e | a
      · rw [hpa] at h; simp at h
      · rw [hpa] at h
        dsimp only at h
        have hflt : f + 1 < (raw.length : Int) := by
          have := hfc1 (by omega)
          omega
        rw [if_pos hflt] at h
        have hfr : (f + 1).toNat = if_ + 1 := by omega
        rw [hfr] at h
        have hval := assemble_ok _ _ h
        have hstr := uriString_of_ok scheme ((raw.take if_).drop j) []
            (raw.drop (if_ + 1)) a u hval hpa hca
        rw [hstr, hpre']
        rw [if_pos (by rw [List.length_drop]; omega :
          0 < (raw.drop (if_ + 1)).length)]
        simp only [List.length_nil, lt_irrefl, if_false, List.append_nil]
        rw [List.append_assoc]
        exact glue_mid raw j if_ fragmentMark hjlef hIeq _ rfl

theorem parse_roundtrip (raw : GoStr) (w : Bool) (u : Uri)
    (h : parse raw w = (some u, none)) (hf : faithful raw) :
    uriString u = raw := by
  unfold parse at h
  simp only [] at h
  unfold faithful at hf
  simp only [] at hf
  obtain ⟨hf1, hf2, hf3, hf4⟩ := hf
  by_cases k1 : (indexByte raw colonMark == 0 || indexByte raw questionMark == 0 ||
      indexByte raw fragmentMark == 0) = true
  · rw [if_pos k1] at h; simp at h
  · rw [if_neg k1] at h
    have k1' : indexByte raw colonMark ≠ 0 ∧ indexByte raw questionMark ≠ 0 ∧
        indexByte raw fragmentMark ≠ 0 := by
      simp only [Bool.or_eq_true, beq_iff_eq] at k1
      push_neg at k1
      exact ⟨k1.1.1, k1.1.2, k1.2⟩
    by_cases k2 : (indexByte raw colonMark == 1) = true
    · rw [if_pos k2] at h; simp at h
    · rw [if_neg k2] at h
      have k2' : indexByte raw colonMark ≠ 1 := by
        simp only [beq_iff_eq] at k2
        exact k2
      by_cases k3 : (indexByte raw questionMark == 1 ||
          indexByte raw fragmentMark == 1) = true
      · rw [if_pos k3] at h; simp at h
      · rw [if_neg k3] at h
        by_cases k4 : ((decide (indexByte raw questionMark > 0) &&
            decide (indexByte raw questionMark < indexByte raw colonMark)) ||
            (decide (indexByte raw fragmentMark > 0) &&
            decide (indexByte raw fragmentMark < indexByte raw colonMark))) = true
        · rw [if_pos k4] at h; simp at h
        · rw [if_neg k4] at h
          have k4' : (indexByte raw questionMark > 0 →
              indexByte raw colonMark ≤ indexByte raw questionMark) ∧
              (indexByte raw fragmentMark > 0 →
              indexByte raw colonMark ≤ indexByte raw fragmentMark) := by
            simp only [Bool.or_eq_true, Bool.and_eq_true, decide_eq_true_eq,
              not_or, not_and] at k4
            constructor
            · intro hq
              have := k4.1 hq
              omega
            · intro hq
              have := k4.2 hq
              omega
          have hne_cf : ∀ b2 : Nat, b2 ≠ colonMark → 0 ≤ indexByte raw b2 →
              indexByte raw colonMark ≠ indexByte raw b2 := by
            intro b2 hb2 hnn hcontra
            obtain ⟨i2, hi2⟩ := Int.eq_ofNat_of_zero_le hnn
            have h1' : indexByte raw colonMark = (i2 : Int) := by
              rw [hcontra]; exact hi2
            have := indexByte_same_pos raw colonMark b2 i2 h1' hi2
            exact hb2 this.symm
          by_cases k5 : (decide (indexByte raw colonMark > 0) &&
              !goStartsWith raw authorityPre) = true
          · rw [if_pos k5] at h
            rw [if_pos k5] at hf4
            have hse_pos : indexByte raw colonMark > 0 := by
              simp only [Bool.and_eq_true, decide_eq_true_eq] at k5
              exact k5.1
            obtain ⟨iS, hiS⟩ := Int.eq_ofNat_of_zero_le (le_of_lt hse_pos)
            obtain ⟨hSlt, hSeq, -⟩ := indexByte_split raw colonMark iS hiS
            have hiS1 : 0 < iS := by omega
            have hschemeq : goSlice raw 0 (indexByte raw colonMark) = raw.take iS := by
              rw [hiS]
              simp [goSlice]
            have hslen : (goSlice raw 0 (indexByte raw colonMark)).length = iS := by
              rw [hschemeq, List.length_take]
              omega
            have hpre : (if 0 < (goSlice raw 0 (indexByte raw colonMark)).length then
                goSlice raw 0 (indexByte raw colonMark) ++ [colonMark] else []) =
                raw.take ((indexByte raw colonMark) + 1).toNat := by
              rw [if_pos (by omega)]
              rw [hschemeq, hiS]
              have ht : ((iS : Int) + 1).toNat = iS + 1 := by omega
              rw [ht]
              conv_rhs => rw [← hSeq]
              rw [mid_take _ _ _ _ (by rw [List.length_take]; omega)]
              have hlt : (raw.take iS).length = iS := by
                rw [List.length_take]; omega
              rw [hlt]
              simp
            have hseh : (if (decide (indexByte raw fragmentMark > 0) &&
                decide (indexByte raw fragmentMark < indexByte raw questionMark)) = true
                then indexByte raw fragmentMark else indexByte raw questionMark) > 0 →
                indexByte raw colonMark + 1 ≤
                (if (decide (indexByte raw fragmentMark > 0) &&
                decide (indexByte raw fragmentMark < indexByte raw questionMark)) = true
                then indexByte raw fragmentMark else indexByte raw questionMark) := by
              by_cases hd : (decide (indexByte raw fragmentMark > 0) &&
                  decide (indexByte raw fragmentMark < indexByte raw questionMark)) = true
              · rw [if_pos hd]
                intro hpos
                have hle := k4'.2 hpos
                have hne := hne_cf fragmentMark (by decide) (by omega)
                omega
              · rw [if_neg hd]
                intro hpos
                have hle := k4'.1 hpos
                have hne := hne_cf questionMark (by decide) (by omega)
                omega
            have hsef : indexByte raw fragmentMark > 0 →
                indexByte raw colonMark + 1 ≤ indexByte raw fragmentMark := by
              intro hpos
              have hle := k4'.2 hpos
              have hne := hne_cf fragmentMark (by decide) (by omega)
              omega
            by_cases k6 : ((indexByte raw colonMark) + 1 == (raw.length : Int)) = true
            · rw [if_pos k6] at h
              have hlen : iS + 1 = raw.length := by
                simp only [beq_iff_eq] at k6
                omega
              have hval := assemble_ok _ _ h
              have htake : raw.take (iS + 1) = raw := by
                rw [hlen, List.take_length]
              have hwhole : goSlice raw 0 (indexByte raw colonMark) ++ [colonMark] =
                  raw := by
                rw [hschemeq]
                conv_rhs => rw [← htake, ← hSeq]
                rw [mid_take _ _ _ _ (by rw [List.length_take]; omega)]
                have hlt : (raw.take iS).length = iS := by
                  rw [List.length_take]; omega
                rw [hlt]
                simp
              rcases uriValidate_ok_shape _ _ hval with ⟨-, rfl⟩ | ⟨ip, hav, rfl⟩
              · simp only [uriString, authorityString]
                rw [if_pos (by omega)]
                simp [hwhole]
              · have hip0 : ip = {} := (authorityValidate_ok _ _ _ hav).1 rfl
                subst hip0
                simp only [uriString, authorityString]
                rw [if_pos (by omega)]
                simp [hwhole]
            · rw [if_neg k6] at h
              exact parseAfterScheme_roundtrip raw (indexByte raw colonMark) _ _ _ u h
                rfl rfl hpre (by omega) hseh hsef k1'.2.1 k1'.2.2 hf1 hf2 hf3 hf4
          · rw [if_neg k5] at h
            rw [if_neg k5] at hf4
            by_cases k7 : (!w) = true
            · rw [if_pos k7] at h; simp at h
            · rw [if_neg k7] at h
              by_cases k8 : goStartsWith raw authorityPre = true
              · rw [if_pos k8] at h
                refine parseAfterScheme_roundtrip raw (-1) _ _ [] u h rfl rfl
                  (by simp) (by omega) (by intro hpos; omega) (by intro hpos; omega)
                  k1'.2.1 k1'.2.2 hf1 hf2 hf3 ?_
                have hc0 : ((-1 : Int) + 1) = 0 := by omega
                rw [hc0]
                exact hf4
              · rw [if_neg k8] at h
                have hrelf : goStartsWith raw authorityPre = false := by
                  revert k8; cases goStartsWith raw authorityPre <;> simp
                have hsem1 : indexByte raw colonMark = -1 := by
                  have hge := indexByte_ge raw colonMark
                  have hnotpos : ¬indexByte raw colonMark > 0 := by
                    intro hcon
                    exact k5 (by rw [hrelf]; simp [hcon])
                  have k1a := k1'.1
                  omega
                refine parseAfterScheme_roundtrip raw (indexByte raw colonMark) _ _
                  [] u h rfl rfl (by rw [hsem1]; simp) (by omega)
                  (by intro hpos; omega) (by intro hpos; omega)
                  k1'.2.1 k1'.2.2 hf1 hf2 hf3 ?_
                have hc0 : (indexByte raw colonMark + 1) = (0 : Int) := by omega
                rw [hc0]
                exact hf4

instance (host1 : GoStr) : Decidable (hostPortCond host1) := by
  unfold hostPortCond
  exact inferInstance

instance (hier : GoStr) : Decidable (authorityCond hier) := by
  unfold authorityCond
  exact inferInstance

instance (raw : GoStr) : Decidable (faithful raw) := by
  unfold faithful
  exact inferInstance

def C1bad : GoStr := cs ['h','t','t','p',':','/','/','a',':']

def C1wit : GoStr :=
  cs ['h','t','t','p',':','/','/','u','@','h',':','1','/','p','?','q','#','f']

/-- C1 (amended): round-trip holds for syntactically faithful inputs: if
`parse` (with either reference flag) succeeds on `raw` and `raw` satisfies
`faithful` — the `#` is not the last byte, the effective `?` is not the
last byte and not immediately followed by `#`, no truncated-`@` userinfo,
a bracketed host only at the start of the host field with at most a
`:port` (with non-empty port) behind the closing bracket, and no dangling
`:` after a bare host — then `String()` of the parsed value returns `raw`
byte for byte. -/
theorem C1_round_trip_amended :
    ∀ (raw : GoStr) (w : Bool) (u : Uri),
      parse raw w = (some u, none) → faithful raw → uriString u = raw :=
  parse_roundtrip

set_option maxRecDepth 1000000 in
/-- Counterexample to C1 as stated: `http://a:` parses successfully (the
empty port skips port validation), but `String()` returns `http://a` —
the dangling `:` of the empty port is dropped, so the output is not
byte-exact with the input. -/
theorem C1_round_trip_counterexample :
    (Parse C1bad).2 = none ∧ (Parse C1bad).1.isSome = true ∧
    uriString ((Parse C1bad).1.getD {}) ≠ C1bad :=
  ⟨by decide, by decide, by decide⟩

set_option maxRecDepth 1000000 in
/-- Witness for C1: `http://u@h:1/p?q#f` parses successfully, satisfies
the faithfulness conditions, and round-trips byte-exactly. -/
theorem C1_round_trip_witness :
    parse C1wit false = (some ((Parse C1wit).1.getD {}), none) ∧ faithful C1wit ∧
    uriString ((Parse C1wit).1.getD {}) = C1wit :=
  ⟨by decide, by decide,
   C1_round_trip_amended C1wit false ((Parse C1wit).1.getD {}) (by decide) (by decide)⟩
